import Mathlib

/-!
Verification of the A* pathfinding visualizer (`src/astar_script.js`).

The grid cells are identified by their integer coordinates (the JS code creates
one `Node` object per coordinate pair, and all lookups go through
`this.grid[x][y]`, so object identity coincides with coordinate identity).
Mutable per-cell fields (`g`, `h`, `f`, `parent`, role flags) are modelled as
functions from positions; the open/closed/path arrays as lists of positions.

`this.end` is modelled by the field name `endRef` / `endP` because `end` is a
Lean keyword.  DOM / canvas / particle rendering is out of scope (the spec's
"Visual/Interaction Layer" external collaborator); `alert` calls are modelled
as explicit result values.
-/

namespace AStarVis

abbrev Pos := Nat × Nat

/-- Pointwise update of a per-cell field, mirroring a mutation of one node. -/
def upd {α : Type} (fld : Pos → α) (p : Pos) (v : α) : Pos → α :=
  fun q => if q = p then v else fld q

/-- `heuristic(a, b)` from the source: Manhattan distance
`Math.abs(a.x - b.x) + Math.abs(a.y - b.y)`. -/
def heuristic (a b : Pos) : Nat :=
  ((a.1 : Int) - (b.1 : Int)).natAbs + ((a.2 : Int) - (b.2 : Int)).natAbs

/-- The four scan directions of `getNeighbors`, in source order
(left, right, then the two vertical moves). -/
def directions : List (Int × Int) := [(-1, 0), (1, 0), (0, -1), (0, 1)]

/-- Body of the `directions.forEach` in `getNeighbors`: the candidate cell one
step along `d`, kept when it is in bounds and not an obstacle. -/
def neighborCand (cols rows : Nat) (obst : Pos → Bool) (n : Pos) (d : Int × Int) :
    Option Pos :=
  let newX : Int := (n.1 : Int) + d.1
  let newY : Int := (n.2 : Int) + d.2
  if 0 ≤ newX ∧ newX < (cols : Int) ∧ 0 ≤ newY ∧ newY < (rows : Int) then
    let nb : Pos := (newX.toNat, newY.toNat)
    if obst nb then none else some nb
  else none

/-- `getNeighbors`: the in-bounds, non-obstacle cardinal neighbors of a cell,
in the fixed direction order.  The grid model is given by the dimensions and
the obstacle flags. -/
def getNeighbors (cols rows : Nat) (obst : Pos → Bool) (n : Pos) : List Pos :=
  directions.filterMap (neighborCand cols rows obst n)

/-- The linear scan of `startPathfinding` lines 347-355: walk the rest of the
open set keeping the strictly smaller `f`, together with its index. -/
def selectFrom (fv : Pos → Nat) : List Pos → Nat → Pos → Nat → Pos × Nat
  | [], _, best, bestIdx => (best, bestIdx)
  | x :: xs, i, best, bestIdx =>
      if fv x < fv best then selectFrom fv xs (i + 1) x i
      else selectFrom fv xs (i + 1) best bestIdx

/-- Selection of the expanded node: `current = openSet[0]` then the strict
`<` scan.  Returns the chosen node and its index, `none` iff the open set is
empty (the loop guard `openSet.length > 0`). -/
def selectMin (fv : Pos → Nat) : List Pos → Option (Pos × Nat)
  | [] => none
  | x :: xs => some (selectFrom fv xs 1 x 0)

/-- State of the search engine: the fields of `AStarVisualizer` that the
`startPathfinding` loop reads and writes, plus the grid model and endpoints. -/
structure SearchState where
  cols : Nat
  rows : Nat
  isObstacle : Pos → Bool
  startP : Pos
  endP : Pos
  g : Pos → Nat
  h : Pos → Nat
  f : Pos → Nat
  parent : Pos → Option Pos
  isExplored : Pos → Bool
  isFrontier : Pos → Bool
  openSet : List Pos
  closedSet : List Pos

/-- The unconditional tail of the neighbor loop: set
`neighbor.parent = current`, `neighbor.g = tentativeG`,
`neighbor.h = heuristic(neighbor, end)`, `neighbor.f = g + h`. -/
def updateNbr (current nb : Pos) (tg : Nat) (s : SearchState) : SearchState :=
  let h2 := heuristic nb s.endP
  { s with parent := upd s.parent nb (some current),
           g := upd s.g nb tg,
           h := upd s.h nb h2,
           f := upd s.f nb (tg + h2) }

/-- One pass of the neighbor loop body (source lines 384-409): skip closed
neighbors, admit fresh neighbors to the open set (marking them frontier),
skip non-improving known neighbors, and otherwise update the cost fields. -/
def relax (current : Pos) (s : SearchState) (nb : Pos) : SearchState :=
  if nb ∈ s.closedSet then s
  else
    let tg := s.g current + 1
    if nb ∈ s.openSet then
      if s.g nb ≤ tg then s
      else updateNbr current nb tg s
    else
      updateNbr current nb tg
        { s with openSet := s.openSet ++ [nb], isFrontier := upd s.isFrontier nb true }

/-- Outcome of one iteration of the `while (this.openSet.length > 0)` loop. -/
inductive StepOut where
  | empty : StepOut
  | reachedEnd : SearchState → StepOut
  | advance : SearchState → StepOut

/-- One iteration: select the minimum-`f` open node, splice it out, push it on
the closed set, mark it explored; return if it is the end, else relax its
neighbors. -/
def stepOnce (s : SearchState) : StepOut :=
  match selectMin s.f s.openSet with
  | none => .empty
  | some (current, idx) =>
      let s1 : SearchState :=
        { s with openSet := s.openSet.eraseIdx idx,
                 closedSet := s.closedSet ++ [current],
                 isExplored := upd s.isExplored current true }
      if current = s.endP then .reachedEnd s1
      else .advance ((getNeighbors s1.cols s1.rows s1.isObstacle current).foldl (relax current) s1)

/-- `reconstructPath`'s walk: follow `parent` links backward from the end,
prepending each node (`unshift`), so the result runs start-to-end.  The JS
loop is unbounded; the embedding carries fuel, shown sufficient under the
search invariants. -/
def walkParents (fuel : Nat) (cur : Option Pos) (par : Pos → Option Pos) : List Pos :=
  match fuel, cur with
  | 0, _ => []
  | _ + 1, none => []
  | fuel + 1, some c => walkParents fuel (par c) par ++ [c]

/-- Result of the search loop. -/
inductive AStarResult where
  | found : List Pos → SearchState → AStarResult
  | noPath : SearchState → AStarResult
  | outOfFuel : SearchState → AStarResult

/-- The main loop of `startPathfinding`, with fuel standing in for the
unbounded `while`.  On reaching the end it reconstructs the path from the
parent links. -/
def astarLoop : Nat → SearchState → AStarResult
  | 0, s => .outOfFuel s
  | fuel + 1, s =>
      match stepOnce s with
      | .empty => .noPath s
      | .reachedEnd s1 =>
          .found (walkParents (s1.cols * s1.rows + 1) (some s1.endP) s1.parent) s1
      | .advance s2 => astarLoop fuel s2

/-- The search state right after the initialization lines 340-343 (run after
`clearPath` has zeroed every per-cell field): `openSet = [start]`,
`start.g = 0`, `start.h = start.f = heuristic(start, end)`. -/
def initSearch (cols rows : Nat) (obst : Pos → Bool) (a b : Pos) : SearchState :=
  { cols := cols, rows := rows, isObstacle := obst, startP := a, endP := b,
    g := upd (fun _ => 0) a 0,
    h := upd (fun _ => 0) a (heuristic a b),
    f := upd (fun _ => 0) a (heuristic a b),
    parent := fun _ => none,
    isExplored := fun _ => false,
    isFrontier := fun _ => false,
    openSet := [a],
    closedSet := [] }

/-- Run the search loop to completion.  `cols * rows + 1` fuel is enough: each
iteration moves one grid cell into the duplicate-free closed set. -/
def runAStar (s : SearchState) : AStarResult :=
  astarLoop (s.cols * s.rows + 1) s

/-- Iterate only the `advance` branch of the loop, exposing every intermediate
search state (used to state invariants over whole runs). -/
def iterateSearch : Nat → SearchState → Option SearchState
  | 0, s => some s
  | n + 1, s =>
      match stepOnce s with
      | .advance s2 => iterateSearch n s2
      | _ => none

/-!  ## Interaction-layer state and actions (`AStarVisualizer` fields and handlers)  -/

/-- Full visualizer state: grid-model fields plus the interaction flags.
`endRef` models `this.end`. -/
structure State where
  cols : Nat
  rows : Nat
  g : Pos → Nat
  h : Pos → Nat
  f : Pos → Nat
  parent : Pos → Option Pos
  isObstacle : Pos → Bool
  isStart : Pos → Bool
  isEnd : Pos → Bool
  isPath : Pos → Bool
  isExplored : Pos → Bool
  isFrontier : Pos → Bool
  openSet : List Pos
  closedSet : List Pos
  path : List Pos
  start : Option Pos
  endRef : Option Pos
  isPlacingStart : Bool
  isDrawingObstacles : Bool
  isRunning : Bool
  animationEnabled : Bool

/-- `clearStartEnd`: drop the start/end flags of the referenced nodes, null the
references, and re-enter start-placing mode. -/
def clearStartEnd (s : State) : State :=
  let s1 := match s.start with
            | some p => { s with isStart := upd s.isStart p false }
            | none => s
  let s2 := match s1.endRef with
            | some q => { s1 with isEnd := upd s1.isEnd q false }
            | none => s1
  { s2 with start := none, endRef := none, isPlacingStart := true }

/-- `clearPath`: empty the open/closed/path arrays, zero every cell's cost
fields and parent, drop the path/explored/frontier flags, stop running. -/
def clearPath (s : State) : State :=
  { s with openSet := [], closedSet := [], path := [],
           f := fun _ => 0, g := fun _ => 0, h := fun _ => 0,
           parent := fun _ => none,
           isPath := fun _ => false,
           isExplored := fun _ => false,
           isFrontier := fun _ => false,
           isRunning := false }

/-- `clearAll`: `clearPath`, `clearStartEnd`, then drop every obstacle flag. -/
def clearAll (s : State) : State :=
  let s1 := clearStartEnd (clearPath s)
  { s1 with isObstacle := fun _ => false }

/-- `handleMouseDown`: place the start, place the end (refused on the start
cell), or toggle an obstacle (refused on start/end cells), depending on mode.
The click position is already grid-quantized; out-of-bounds clicks return. -/
def handleMouseDown (p : Pos) (s : State) : State :=
  if s.isRunning then s
  else if p.1 < s.cols ∧ p.2 < s.rows then
    if s.isPlacingStart then
      let s1 := clearStartEnd s
      { s1 with isStart := upd s1.isStart p true, start := some p, isPlacingStart := false }
    else if s.start = none ∨ s.endRef = none then
      if s.isStart p = false then
        { s with isEnd := upd s.isEnd p true, endRef := some p }
      else s
    else
      if s.isStart p = false ∧ s.isEnd p = false then
        { s with isObstacle := upd s.isObstacle p (!s.isObstacle p),
                 isDrawingObstacles := true }
      else s
  else s

/-- `handleMouseMove`: drag-paint an obstacle when in drawing mode and not
running, skipping start/end cells. -/
def handleMouseMove (p : Pos) (s : State) : State :=
  if !s.isDrawingObstacles || s.isRunning then s
  else if p.1 < s.cols ∧ p.2 < s.rows then
    if s.isStart p = false ∧ s.isEnd p = false then
      { s with isObstacle := upd s.isObstacle p true }
    else s
  else s

/-- The canvas `mouseup` listener: stop drawing obstacles. -/
def handleMouseUp (s : State) : State :=
  { s with isDrawingObstacles := false }

/-- `generateRandomObstacles`: `clearPath`, then each in-bounds non-start,
non-end cell becomes an obstacle when the random draw (modelled by `coin`)
succeeds. -/
def generateRandomObstacles (coin : Pos → Bool) (s : State) : State :=
  let s1 := clearPath s
  { s1 with isObstacle := fun p =>
      if p.1 < s1.cols ∧ p.2 < s1.rows ∧ s1.isStart p = false ∧ s1.isEnd p = false ∧ coin p
      then true else s1.isObstacle p }

/-- `toggleAnimation`: flip the animation mode flag. -/
def toggleAnimation (s : State) : State :=
  { s with animationEnabled := !s.animationEnabled }

/-- Result reported by `startPathfinding`: the missing-endpoints alert, a
successful path, the no-path alert, or fuel exhaustion (an artifact of the
embedding, shown unreachable). -/
inductive StartOutcome where
  | missingEndpoints : StartOutcome
  | pathFound : StartOutcome
  | noPathFound : StartOutcome
  | fuelExhausted : StartOutcome
deriving DecidableEq

/-- Merge the final loop state back into the visualizer state. -/
def mergeSearch (s1 : State) (fin : SearchState) : State :=
  { s1 with g := fin.g, h := fin.h, f := fin.f, parent := fin.parent,
            isExplored := fin.isExplored, isFrontier := fin.isFrontier,
            openSet := fin.openSet, closedSet := fin.closedSet,
            isRunning := false }

/-- `startPathfinding` run to completion: reject when either endpoint is
unset; otherwise `clearPath`, initialize, run the loop, and on success store
the reconstructed path and mark its interior cells `isPath`. -/
def startPathfinding (s : State) : StartOutcome × State :=
  match s.start, s.endRef with
  | some a, some b =>
      let s1 := clearPath s
      match runAStar (initSearch s1.cols s1.rows s1.isObstacle a b) with
      | .found pth fin =>
          (.pathFound,
            { mergeSearch s1 fin with
                path := pth,
                isPath := fun q =>
                  if q ∈ pth ∧ s1.isStart q = false ∧ s1.isEnd q = false then true
                  else s1.isPath q })
      | .noPath fin => (.noPathFound, mergeSearch s1 fin)
      | .outOfFuel fin => (.fuelExhausted, mergeSearch s1 fin)
  | _, _ => (.missingEndpoints, s)

/-- The user-facing actions of §6, as wired in `setupEventListeners`. -/
inductive Action where
  | mouseDown : Pos → Action
  | mouseMove : Pos → Action
  | mouseUp : Action
  | startBtn : Action
  | clearBtn : Action
  | randomBtn : (Pos → Bool) → Action
  | clearAllBtn : Action
  | animateBtn : Action

/-- Apply one action to the state. -/
def applyAction : Action → State → State
  | .mouseDown p, s => handleMouseDown p s
  | .mouseMove p, s => handleMouseMove p s
  | .mouseUp, s => handleMouseUp s
  | .startBtn, s => (startPathfinding s).2
  | .clearBtn, s => clearPath s
  | .randomBtn coin, s => generateRandomObstacles coin s
  | .clearAllBtn, s => clearAll s
  | .animateBtn, s => toggleAnimation s

/-- The freshly constructed visualizer state (`constructor` + `initGrid`). -/
def initState (cols rows : Nat) : State :=
  { cols := cols, rows := rows,
    g := fun _ => 0, h := fun _ => 0, f := fun _ => 0,
    parent := fun _ => none,
    isObstacle := fun _ => false, isStart := fun _ => false, isEnd := fun _ => false,
    isPath := fun _ => false, isExplored := fun _ => false, isFrontier := fun _ => false,
    openSet := [], closedSet := [], path := [],
    start := none, endRef := none,
    isPlacingStart := true, isDrawingObstacles := false, isRunning := false,
    animationEnabled := true }

/-- The state after a sequence of user actions on a fresh visualizer. -/
def runActions (cols rows : Nat) (acts : List Action) : State :=
  acts.foldl (fun s a => applyAction a s) (initState cols rows)

/-!  ## Moving-obstacle simulator (spec-modelled)

The spec's Moving-Obstacle Simulator (§4.2) and the search variant consulting
it belong to repository variants that are not under `src/`; they are modelled
here from the spec's words.  -/

/-- Modelled from the spec: a MovingObstacle has a continuous position
`(x, y)` (not cell-quantized), a direction `(dx, dy) ∈ {-1,0,1}²`, a `speed`,
and a fractional-step `counter`. -/
structure MovingObstacle where
  x : Rat
  y : Rat
  dx : Int
  dy : Int
  speed : Rat
  counter : Rat

/-- Modelled from the spec: `occupies(x, y)` is true if any obstacle's floored
position equals `(x, y)`. -/
def occupies (obs : List MovingObstacle) (x y : Nat) : Bool :=
  obs.any fun o => o.x.floor == (x : Int) && o.y.floor == (y : Int)

/-- Modelled from the spec: the neighbor set used by the search-engine variant
that consults the simulator — the Grid Model neighbors, filtered additionally
by `occupies`. -/
def getNeighborsDyn (obs : List MovingObstacle) (cols rows : Nat) (obst : Pos → Bool)
    (n : Pos) : List Pos :=
  (getNeighbors cols rows obst n).filter fun p => !occupies obs p.1 p.2

/-- Modelled from the spec: the expansion step of that variant, identical to
`stepOnce` except that each expanded cell's neighbors come from
`getNeighborsDyn` under the simulator's current snapshot. -/
def stepOnceDyn (obs : List MovingObstacle) (s : SearchState) : StepOut :=
  match selectMin s.f s.openSet with
  | none => .empty
  | some (current, idx) =>
      let s1 : SearchState :=
        { s with openSet := s.openSet.eraseIdx idx,
                 closedSet := s.closedSet ++ [current],
                 isExplored := upd s.isExplored current true }
      if current = s.endP then .reachedEnd s1
      else .advance ((getNeighborsDyn obs s1.cols s1.rows s1.isObstacle current).foldl
                       (relax current) s1)

/-!  ## Concrete demonstration states  -/

/-- A fresh 10×10 obstacle-free visualizer with start `(0,0)` and end
`(9,9)` placed (the spec's concrete scenario). -/
def demoC1 : State :=
  { initState 10 10 with
      isStart := upd (fun _ => false) (0, 0) true,
      isEnd := upd (fun _ => false) (9, 9) true,
      start := some (0, 0), endRef := some (9, 9),
      isPlacingStart := false }

/-- A small mid-search state whose open set has a unique minimum-`f` member
at index 1. -/
def demoC2 : SearchState :=
  { cols := 3, rows := 1, isObstacle := fun _ => false,
    startP := (0, 0), endP := (2, 0),
    g := fun _ => 0, h := fun _ => 0, f := fun p => p.1 + 3,
    parent := fun _ => none,
    isExplored := fun _ => false, isFrontier := fun _ => false,
    openSet := [(2, 0), (0, 0), (1, 0)], closedSet := [] }

/-- One moving obstacle whose continuous position `(3/2, 5/2)` floors to the
cell `(1, 2)`. -/
def demoObstacles : List MovingObstacle :=
  [{ x := mkRat 3 2, y := mkRat 5 2, dx := 1, dy := -1, speed := mkRat 1 2,
     counter := 0 }]

/-- A 3×3 visualizer with only the start placed at `(0,0)`. -/
def demoC4 : State :=
  { initState 3 3 with
      isStart := upd (fun _ => false) (0, 0) true,
      start := some (0, 0), isPlacingStart := false }

/-- A 2×2 obstacle-free visualizer with both endpoints placed. -/
def demoC9A : State :=
  { initState 2 2 with
      isStart := upd (fun _ => false) (0, 0) true,
      isEnd := upd (fun _ => false) (1, 1) true,
      start := some (0, 0), endRef := some (1, 1),
      isPlacingStart := false }

/-- The same grid configuration as `demoC9A` but with stale search leftovers
and different interaction flags. -/
def demoC9B : State :=
  { demoC9A with
      isExplored := fun _ => true,
      g := fun _ => 7,
      path := [(0, 0)],
      animationEnabled := false,
      isDrawingObstacles := true }

/-!  ## Search invariants

`InvCore` collects the state invariants of the loop; `Inv` adds the relaxed
neighborhood property of closed cells; `InvOF` adds the facts specific to an
obstacle-free grid that drive the optimal-length argument.  -/

/-- A cell is "known" when it sits in the open or the closed set. -/
def memberOf (s : SearchState) (p : Pos) : Prop :=
  p ∈ s.openSet ∨ p ∈ s.closedSet

/-- Core invariants of every reachable loop state. -/
structure InvCore (s : SearchState) : Prop where
  openNodup : s.openSet.Nodup
  closedNodup : s.closedSet.Nodup
  disj : ∀ p, p ∈ s.openSet → p ∉ s.closedSet
  memValid : ∀ p, memberOf s p →
    p = s.startP ∨ (p.1 < s.cols ∧ p.2 < s.rows ∧ s.isObstacle p = false)
  startMem : memberOf s s.startP
  startG : s.g s.startP = 0
  startPar : s.parent s.startP = none
  startValid : s.startP.1 < s.cols ∧ s.startP.2 < s.rows
  endValid : s.endP.1 < s.cols ∧ s.endP.2 < s.rows
  gLower : ∀ p, memberOf s p → heuristic s.startP p ≤ s.g p
  cohH : ∀ p, memberOf s p → s.h p = heuristic p s.endP
  cohF : ∀ p, memberOf s p → s.f p = s.g p + s.h p
  parentInv : ∀ p, memberOf s p → p ≠ s.startP →
    ∃ q, s.parent p = some q ∧ q ∈ s.closedSet ∧ s.g p = s.g q + 1

/-- Full invariant: core plus the goal staying unexpanded and the
expanded-neighborhood property. -/
structure Inv (s : SearchState) extends InvCore s : Prop where
  endNotClosed : s.endP ∉ s.closedSet
  closedExpanded : ∀ z ∈ s.closedSet, ∀ nb ∈ getNeighbors s.cols s.rows s.isObstacle z,
    nb ∈ s.closedSet ∨ (nb ∈ s.openSet ∧ s.g nb ≤ s.g z + 1)

/-- Obstacle-free extras: all closed cells respect the global `f`-bound and an
optimally-costed cell on an optimal corridor sits in the open set. -/
structure InvOF (s : SearchState) extends Inv s : Prop where
  obstFree : ∀ p, s.isObstacle p = false
  closedFBound : ∀ z ∈ s.closedSet,
    s.g z + heuristic z s.endP ≤ heuristic s.startP s.endP
  witness : ∃ w, w ∈ s.openSet ∧
    heuristic s.startP w + heuristic w s.endP = heuristic s.startP s.endP ∧
    s.g w = heuristic s.startP w

/-- All search-derived state is reset: cost fields, parents, search role
flags, and the open/closed/path collections. -/
def PathClear (s : State) : Prop :=
  s.g = (fun _ => 0) ∧ s.h = (fun _ => 0) ∧ s.f = (fun _ => 0) ∧
  s.parent = (fun _ => none) ∧
  s.isPath = (fun _ => false) ∧ s.isExplored = (fun _ => false) ∧
  s.isFrontier = (fun _ => false) ∧
  s.openSet = [] ∧ s.closedSet = [] ∧ s.path = []

/-- Interaction-layer invariant, maintained by every user action: the role
flags mirror the `start`/`end` references, the references never coincide,
start-placing mode implies a blank slate, and no action leaves the visualizer
running. -/
structure UIInv (s : State) : Prop where
  flagsStart : ∀ p, s.isStart p = true ↔ s.start = some p
  flagsEnd : ∀ p, s.isEnd p = true ↔ s.endRef = some p
  refsNe : ∀ p, ¬(s.start = some p ∧ s.endRef = some p)
  placing : s.isPlacingStart = true → s.start = none ∧ s.endRef = none ∧ PathClear s
  notPlacing : s.isPlacingStart = false → s.start ≠ none
  running : s.isRunning = false
  startBounds : ∀ p, s.start = some p → p.1 < s.cols ∧ p.2 < s.rows

/-- The facts about a single `advance` step that the obstacle-free argument
consumes, relating the pre- and post-states through the expanded cell. -/
structure StepFacts (s s2 : SearchState) (current : Pos) : Prop where
  curMemOpen : current ∈ s.openSet
  curNotEnd : current ≠ s.endP
  minf : ∀ q ∈ s.openSet, s.f current ≤ s.f q
  closedEq : s2.closedSet = s.closedSet ++ [current]
  constCols : s2.cols = s.cols
  constRows : s2.rows = s.rows
  constObst : s2.isObstacle = s.isObstacle
  constStart : s2.startP = s.startP
  constEnd : s2.endP = s.endP
  openSurvive : ∀ p ∈ s.openSet, p ≠ current → p ∈ s2.openSet
  gMono : ∀ p ∈ s.openSet, s2.g p ≤ s.g p
  gFrozenClosed : ∀ p, p ∈ s.closedSet ∨ p = current → s2.g p = s.g p
  nbProcessed : ∀ nb ∈ getNeighbors s.cols s.rows s.isObstacle current,
    nb ∈ s2.closedSet ∨ (nb ∈ s2.openSet ∧ s2.g nb ≤ s.g current + 1)

/-- Mid-fold invariant while the neighbors of `current` are being relaxed:
`s1` is the state just after `current` moved to the closed set, `t` the
current fold state, `processed` the neighbors already handled. -/
structure FoldInv (s1 : SearchState) (current : Pos) (t : SearchState)
    (processed : List Pos) : Prop where
  core : InvCore t
  constCols : t.cols = s1.cols
  constRows : t.rows = s1.rows
  constObst : t.isObstacle = s1.isObstacle
  constStart : t.startP = s1.startP
  constEnd : t.endP = s1.endP
  constClosed : t.closedSet = s1.closedSet
  constExplored : t.isExplored = s1.isExplored
  openExt : ∃ ladd, t.openSet = s1.openSet ++ ladd
  closedFrozen : ∀ p ∈ t.closedSet,
    t.g p = s1.g p ∧ t.h p = s1.h p ∧ t.f p = s1.f p ∧ t.parent p = s1.parent p
  openGmono : ∀ p ∈ s1.openSet, t.g p ≤ s1.g p
  processedProp : ∀ nb ∈ processed,
    nb ∈ t.closedSet ∨ (nb ∈ t.openSet ∧ t.g nb ≤ s1.g current + 1)
  oldClosed : ∀ z ∈ t.closedSet, z ≠ current →
    ∀ nb ∈ getNeighbors t.cols t.rows t.isObstacle z,
      nb ∈ t.closedSet ∨ (nb ∈ t.openSet ∧ t.g nb ≤ t.g z + 1)

/-!  ## Basic lemmas  -/

@[simp]
theorem upd_self {α : Type} (fld : Pos → α) (p : Pos) (v : α) : upd fld p v p = v := by
  simp [upd]

theorem upd_ne {α : Type} (fld : Pos → α) {p q : Pos} (v : α) (hne : q ≠ p) :
    upd fld p v q = fld q := by
  simp [upd, hne]

@[simp]
theorem heuristic_self (p : Pos) : heuristic p p = 0 := by
  simp [heuristic]

theorem heuristic_eq_zero {p q : Pos} (hz : heuristic p q = 0) : p = q := by
  rcases p with ⟨px, py⟩
  rcases q with ⟨qx, qy⟩
  simp only [heuristic] at hz
  have hx : px = qx := by omega
  have hy : py = qy := by omega
  subst hx
  subst hy
  rfl

theorem heuristic_triangle (a b c : Pos) :
    heuristic a c ≤ heuristic a b + heuristic b c := by
  simp only [heuristic]
  omega

theorem heuristic_comm (a b : Pos) : heuristic a b = heuristic b a := by
  simp only [heuristic]
  omega

/-- On a grid with both endpoints in bounds, `D + 1 ≤ cols * rows`. -/
theorem heuristic_lt_size {cols rows : Nat} {a b : Pos}
    (ha1 : a.1 < cols) (ha2 : a.2 < rows) (hb1 : b.1 < cols) (hb2 : b.2 < rows) :
    heuristic a b + 1 ≤ cols * rows := by
  obtain ⟨c, rfl⟩ : ∃ c, cols = c + 1 := ⟨cols - 1, by omega⟩
  obtain ⟨r, rfl⟩ : ∃ r, rows = r + 1 := ⟨rows - 1, by omega⟩
  have hcr : (c + 1) * (r + 1) = c * r + c + r + 1 := by ring
  have hD : heuristic a b ≤ c + r := by
    simp only [heuristic]
    omega
  omega

set_option maxHeartbeats 1000000 in
/-- From a non-goal cell on an optimal corridor there is a cardinal move that
stays on an optimal corridor and moves one step further from the start. -/
theorem exists_next_toward {cols rows : Nat} {a b w : Pos}
    (ha1 : a.1 < cols) (ha2 : a.2 < rows) (hb1 : b.1 < cols) (hb2 : b.2 < rows)
    (hopt : heuristic a w + heuristic w b = heuristic a b) (hne : w ≠ b) :
    ∃ w' : Pos, heuristic w w' = 1 ∧ heuristic a w' = heuristic a w + 1 ∧
      heuristic a w' + heuristic w' b = heuristic a b ∧ w'.1 < cols ∧ w'.2 < rows := by
  rcases a with ⟨ax, ay⟩
  rcases b with ⟨bx, by'⟩
  rcases w with ⟨wx, wy⟩
  simp only [heuristic] at hopt ⊢
  simp only [ne_eq, Prod.mk.injEq, not_and] at hne
  rcases Nat.lt_trichotomy wx bx with hx | hx | hx
  · exact ⟨(wx + 1, wy), by simp only [heuristic]; omega, by simp only [heuristic]; omega,
      by simp only [heuristic]; omega, by omega, by omega⟩
  · rcases Nat.lt_trichotomy wy by' with hy | hy | hy
    · exact ⟨(wx, wy + 1), by simp only [heuristic]; omega, by simp only [heuristic]; omega,
        by simp only [heuristic]; omega, by omega, by omega⟩
    · exact absurd hy (hne hx)
    · exact ⟨(wx, wy - 1), by simp only [heuristic]; omega, by simp only [heuristic]; omega,
        by simp only [heuristic]; omega, by omega, by omega⟩
  · exact ⟨(wx - 1, wy), by simp only [heuristic]; omega, by simp only [heuristic]; omega,
      by simp only [heuristic]; omega, by omega, by omega⟩

/-- Closed form of one neighbor candidate. -/
theorem neighborCand_eq_some {cols rows : Nat} {obst : Pos → Bool} {n d : _} {q : Pos} :
    neighborCand cols rows obst n d = some q ↔
      ((q.1 : Int) = (n.1 : Int) + d.1 ∧ (q.2 : Int) = (n.2 : Int) + d.2 ∧
        q.1 < cols ∧ q.2 < rows ∧ obst q = false) := by
  rcases q with ⟨qx, qy⟩
  unfold neighborCand
  dsimp only
  split_ifs with hb ho
  · obtain ⟨h1, h2, h3, h4⟩ := hb
    constructor
    · intro hcontra
      exact absurd hcontra (by simp)
    · rintro ⟨e1, e2, _, _, hob⟩
      have ex : ((n.1 : Int) + d.1).toNat = qx := by omega
      have ey : ((n.2 : Int) + d.2).toNat = qy := by omega
      rw [ex, ey] at ho
      rw [hob] at ho
      exact absurd ho (by simp)
  · obtain ⟨h1, h2, h3, h4⟩ := hb
    rw [Option.some.injEq, Prod.mk.injEq]
    constructor
    · rintro ⟨e1, e2⟩
      have ex : (qx : Int) = (n.1 : Int) + d.1 := by omega
      have ey : (qy : Int) = (n.2 : Int) + d.2 := by omega
      refine ⟨ex, ey, by omega, by omega, ?_⟩
      have ex' : ((n.1 : Int) + d.1).toNat = qx := by omega
      have ey' : ((n.2 : Int) + d.2).toNat = qy := by omega
      rw [ex', ey'] at ho
      simpa using ho
    · rintro ⟨e1, e2, _, _, _⟩
      constructor
      · omega
      · omega
  · constructor
    · intro hcontra
      exact absurd hcontra (by simp)
    · rintro ⟨e1, e2, hq1, hq2, _⟩
      exact absurd ⟨by omega, by omega, by omega, by omega⟩ hb

/-- `getNeighbors` yields exactly the cells at Manhattan distance 1 that are
in bounds and not obstacles. -/
theorem mem_getNeighbors {cols rows : Nat} {obst : Pos → Bool} {n q : Pos} :
    q ∈ getNeighbors cols rows obst n ↔
      heuristic n q = 1 ∧ q.1 < cols ∧ q.2 < rows ∧ obst q = false := by
  rw [getNeighbors, List.mem_filterMap]
  constructor
  · rintro ⟨d, hd, hfd⟩
    rw [neighborCand_eq_some] at hfd
    obtain ⟨e1, e2, hq1, hq2, hob⟩ := hfd
    simp only [directions, List.mem_cons, List.not_mem_nil, or_false] at hd
    refine ⟨?_, hq1, hq2, hob⟩
    rcases hd with rfl | rfl | rfl | rfl <;> (simp only [heuristic]; omega)
  · rintro ⟨hH, hq1, hq2, hob⟩
    simp only [heuristic] at hH
    have hcases : ((q.1 : Int) = (n.1 : Int) - 1 ∧ q.2 = n.2) ∨
        ((q.1 : Int) = (n.1 : Int) + 1 ∧ q.2 = n.2) ∨
        ((q.2 : Int) = (n.2 : Int) - 1 ∧ q.1 = n.1) ∨
        ((q.2 : Int) = (n.2 : Int) + 1 ∧ q.1 = n.1) := by omega
    rcases hcases with ⟨e1, e2⟩ | ⟨e1, e2⟩ | ⟨e1, e2⟩ | ⟨e1, e2⟩
    · exact ⟨(-1, 0), by simp [directions],
        neighborCand_eq_some.mpr ⟨by omega, by omega, hq1, hq2, hob⟩⟩
    · exact ⟨(1, 0), by simp [directions],
        neighborCand_eq_some.mpr ⟨by omega, by omega, hq1, hq2, hob⟩⟩
    · exact ⟨(0, -1), by simp [directions],
        neighborCand_eq_some.mpr ⟨by omega, by omega, hq1, hq2, hob⟩⟩
    · exact ⟨(0, 1), by simp [directions],
        neighborCand_eq_some.mpr ⟨by omega, by omega, hq1, hq2, hob⟩⟩

/-!  ### The linear-scan minimum selection  -/

/-- Master induction for the scan: relative to the ambient open list `l`, the
scan keeps the earliest index attaining the strict minimum seen so far. -/
theorem selectFrom_spec (fv : Pos → Nat) (l : List Pos) :
    ∀ (xs : List Pos) (i bi : Nat) (best : Pos),
      l[bi]? = some best → bi < i →
      (∀ j q, j < i → l[j]? = some q → fv best ≤ fv q) →
      (∀ j q, j < bi → l[j]? = some q → fv best < fv q) →
      (∀ k, xs[k]? = l[i + k]?) →
      i + xs.length = l.length →
      l[(selectFrom fv xs i best bi).2]? = some (selectFrom fv xs i best bi).1 ∧
      (∀ j q, j < l.length → l[j]? = some q → fv (selectFrom fv xs i best bi).1 ≤ fv q) ∧
      (∀ j q, j < (selectFrom fv xs i best bi).2 → l[j]? = some q →
        fv (selectFrom fv xs i best bi).1 < fv q) := by
  intro xs
  induction xs with
  | nil =>
      intro i bi best hbi hlt hmin hstrict _ hlen
      refine ⟨hbi, ?_, hstrict⟩
      intro j q hj hq
      refine hmin j q ?_ hq
      simp only [List.length_nil] at hlen
      omega
  | cons x xs ih =>
      intro i bi best hbi hlt hmin hstrict hsuffix hlen
      have hx : l[i]? = some x := by
        have h0 := hsuffix 0
        simp at h0
        exact h0.symm
      by_cases hc : fv x < fv best
      · have hsel : selectFrom fv (x :: xs) i best bi = selectFrom fv xs (i + 1) x i := by
          simp only [selectFrom, if_pos hc]
        rw [hsel]
        refine ih (i + 1) i x hx (Nat.lt_succ_self i) ?_ ?_ ?_ ?_
        · intro j q hj hq
          rcases Nat.lt_succ_iff_lt_or_eq.mp hj with hj' | rfl
          · exact le_of_lt (lt_of_lt_of_le hc (hmin j q hj' hq))
          · rw [hq] at hx
            cases hx
            exact le_refl _
        · intro j q hj hq
          exact lt_of_lt_of_le hc (hmin j q hj hq)
        · intro k
          have hk := hsuffix (k + 1)
          simpa [Nat.add_assoc, Nat.add_comm 1 k] using hk
        · simp only [List.length_cons] at hlen
          omega
      · have hsel : selectFrom fv (x :: xs) i best bi = selectFrom fv xs (i + 1) best bi := by
          simp only [selectFrom, if_neg hc]
        rw [hsel]
        refine ih (i + 1) bi best hbi (Nat.lt_succ_of_lt hlt) ?_ hstrict ?_ ?_
        · intro j q hj hq
          rcases Nat.lt_succ_iff_lt_or_eq.mp hj with hj' | rfl
          · exact hmin j q hj' hq
          · rw [hq] at hx
            cases hx
            exact Nat.le_of_not_lt hc
        · intro k
          have hk := hsuffix (k + 1)
          simpa [Nat.add_assoc, Nat.add_comm 1 k] using hk
        · simp only [List.length_cons] at hlen
          omega

/-- `selectMin` on a non-empty open set returns the member with minimum `f`,
and among equal-`f` members the one at the earliest index. -/
theorem selectMin_spec (fv : Pos → Nat) (l : List Pos) (hne : l ≠ []) :
    ∃ c idx, selectMin fv l = some (c, idx) ∧ l[idx]? = some c ∧
      (∀ q ∈ l, fv c ≤ fv q) ∧
      (∀ j q, j < idx → l[j]? = some q → fv c < fv q) := by
  cases l with
  | nil => exact absurd rfl hne
  | cons x xs =>
      obtain ⟨hget, hmin, hstrict⟩ := selectFrom_spec fv (x :: xs) xs 1 0 x (by simp)
        Nat.zero_lt_one
        (by
          intro j q hj hq
          interval_cases j
          simp only [List.getElem?_cons_zero, Option.some.injEq] at hq
          rw [hq])
        (by intro j q hj; omega)
        (by intro k; simp [Nat.add_comm 1 k])
        (by simp [Nat.add_comm])
      refine ⟨(selectFrom fv xs 1 x 0).1, (selectFrom fv xs 1 x 0).2, rfl, hget, ?_, hstrict⟩
      intro q hq
      obtain ⟨j, hj⟩ := List.mem_iff_getElem?.mp hq
      have hjlen : j < (x :: xs).length := (List.getElem?_eq_some.mp hj).1
      exact hmin j q hjlen hj

/-- The loop guard: selection fails exactly on an empty open set. -/
theorem selectMin_eq_none_iff (fv : Pos → Nat) (l : List Pos) :
    selectMin fv l = none ↔ l = [] := by
  cases l <;> simp [selectMin]

/-!  ### eraseIdx helpers  -/

theorem mem_of_mem_eraseIdx {l : List Pos} {i : Nat} {p : Pos}
    (hp : p ∈ l.eraseIdx i) : p ∈ l :=
  (List.eraseIdx_sublist l i).subset hp

theorem mem_eraseIdx_of_ne {l : List Pos} {i : Nat} {p c : Pos}
    (hmem : p ∈ l) (hc : l[i]? = some c) (hne : p ≠ c) : p ∈ l.eraseIdx i := by
  rw [List.mem_eraseIdx_iff_getElem?]
  obtain ⟨j, hj⟩ := List.mem_iff_getElem?.mp hmem
  refine ⟨j, ?_, hj⟩
  rintro rfl
  rw [hj] at hc
  exact hne (Option.some.inj hc)

theorem not_mem_eraseIdx_self {l : List Pos} (hn : l.Nodup) {i : Nat} {c : Pos}
    (hc : l[i]? = some c) : c ∉ l.eraseIdx i := by
  rw [List.mem_eraseIdx_iff_getElem?]
  rintro ⟨j, hji, hj⟩
  exact hji (List.getElem?_inj (List.getElem?_eq_some.mp hj).1 hn (hj.trans hc.symm))

theorem nodup_eraseIdx {l : List Pos} (hn : l.Nodup) (i : Nat) :
    (l.eraseIdx i).Nodup :=
  hn.sublist (List.eraseIdx_sublist l i)

theorem nodup_append_singleton {l : List Pos} {a : Pos} (hn : l.Nodup) (ha : a ∉ l) :
    (l ++ [a]).Nodup := by
  simp [List.nodup_append, hn, ha]

/-- A duplicate-free list of in-bounds cells has at most `cols * rows`
elements. -/
theorem length_le_of_nodup_of_bounds {l : List Pos} {cols rows : Nat}
    (hn : l.Nodup) (hb : ∀ p ∈ l, p.1 < cols ∧ p.2 < rows) :
    l.length ≤ cols * rows := by
  classical
  have hsub : l.toFinset ⊆ Finset.range cols ×ˢ Finset.range rows := by
    intro p hp
    rw [List.mem_toFinset] at hp
    rcases hb p hp with ⟨h1, h2⟩
    simp [Finset.mem_product, h1, h2]
  have hcard := Finset.card_le_card hsub
  rw [List.toFinset_card_of_nodup hn] at hcard
  simpa [Finset.card_product] using hcard

/-!  ### Parent chains and `reconstructPath`  -/

theorem walkParents_none (fuel : Nat) (par : Pos → Option Pos) :
    walkParents fuel none par = [] := by
  cases fuel <;> rfl

theorem walkParents_succ (fuel : Nat) (c : Pos) (par : Pos → Option Pos) :
    walkParents (fuel + 1) (some c) par = walkParents fuel (par c) par ++ [c] := rfl

/-- Under the core invariants every known cell's parent chain is a
duplicate-free start-to-cell path of exactly `g + 1` cells whose consecutive
entries are parent-linked. -/
theorem chain_spec {s : SearchState} (hc : InvCore s) :
    ∀ n p, memberOf s p → s.g p ≤ n →
      ∀ fuel, s.g p + 1 ≤ fuel →
      (walkParents fuel (some p) s.parent).length = s.g p + 1 ∧
      (walkParents fuel (some p) s.parent).head? = some s.startP ∧
      (walkParents fuel (some p) s.parent).getLast? = some p ∧
      (walkParents fuel (some p) s.parent).Nodup ∧
      (∀ r ∈ walkParents fuel (some p) s.parent, memberOf s r ∧ s.g r ≤ s.g p) ∧
      (∀ i u v, (walkParents fuel (some p) s.parent)[i]? = some u →
        (walkParents fuel (some p) s.parent)[i + 1]? = some v → s.parent v = some u) := by
  intro n
  induction n with
  | zero =>
      intro p hmem hg fuel hfuel
      have hp : p = s.startP := by
        by_contra hne
        obtain ⟨q, _, _, hgq⟩ := hc.parentInv p hmem hne
        omega
      subst hp
      obtain ⟨fuel', rfl⟩ : ∃ fuel', fuel = fuel' + 1 := ⟨fuel - 1, by omega⟩
      rw [walkParents_succ, hc.startPar, walkParents_none]
      simp only [List.nil_append, hc.startG]
      refine ⟨rfl, rfl, rfl, List.nodup_singleton _, ?_, ?_⟩
      · intro r hr
        rw [List.mem_singleton] at hr
        subst hr
        exact ⟨hc.startMem, le_of_eq hc.startG⟩
      · intro i u v hu hv
        rcases i with _ | i <;> simp at hv
  | succ n ih =>
      intro p hmem hg fuel hfuel
      by_cases hp : p = s.startP
      · subst hp
        obtain ⟨fuel', rfl⟩ : ∃ fuel', fuel = fuel' + 1 := ⟨fuel - 1, by omega⟩
        rw [walkParents_succ, hc.startPar, walkParents_none]
        simp only [List.nil_append, hc.startG]
        refine ⟨rfl, rfl, rfl, List.nodup_singleton _, ?_, ?_⟩
        · intro r hr
          rw [List.mem_singleton] at hr
          subst hr
          exact ⟨hc.startMem, le_of_eq hc.startG⟩
        · intro i u v hu hv
          rcases i with _ | i <;> simp at hv
      · obtain ⟨q, hpar, hqc, hgq⟩ := hc.parentInv p hmem hp
        have hqmem : memberOf s q := Or.inr hqc
        have hgqn : s.g q ≤ n := by omega
        obtain ⟨fuel', rfl⟩ : ∃ fuel', fuel = fuel' + 1 := ⟨fuel - 1, by omega⟩
        have hfuel' : s.g q + 1 ≤ fuel' := by omega
        obtain ⟨hlen, hhead, hlast, hnodup, hmemb, hlink⟩ := ih q hqmem hgqn fuel' hfuel'
        rw [walkParents_succ, hpar]
        set ℓq := walkParents fuel' (some q) s.parent with hℓq
        have hne : ℓq ≠ [] := by
          intro hnil
          rw [hnil] at hlen
          simp at hlen
        refine ⟨?_, ?_, List.getLast?_concat _, ?_, ?_, ?_⟩
        · simp only [List.length_append, List.length_singleton, hlen]
          omega
        · rcases ℓq with _ | ⟨x, t⟩
          · exact absurd rfl hne
          · simpa using hhead
        · refine nodup_append_singleton hnodup ?_
          intro hpℓ
          have := (hmemb p hpℓ).2
          omega
        · intro r hr
          rcases List.mem_append.mp hr with hr | hr
          · obtain ⟨hm, hgr⟩ := hmemb r hr
            exact ⟨hm, by omega⟩
          · rw [List.mem_singleton] at hr
            subst hr
            exact ⟨hmem, le_refl _⟩
        · intro i u v hu hv
          rw [List.getElem?_append] at hu hv
          by_cases hi1 : i + 1 < ℓq.length
          · have hi : i < ℓq.length := by omega
            rw [if_pos hi] at hu
            rw [if_pos hi1] at hv
            exact hlink i u v hu hv
          · by_cases hi2 : i + 1 = ℓq.length
            · have hi : i < ℓq.length := by omega
              rw [if_pos hi] at hu
              rw [if_neg (by omega)] at hv
              have : v = p := by
                have h0 : i + 1 - ℓq.length = 0 := by omega
                rw [h0] at hv
                simpa using hv.symm
              subst this
              have hu' : u = q := by
                have hlast' : ℓq[ℓq.length - 1]? = some q := by
                  rw [← List.getLast?_eq_getElem?]
                  exact hlast
                have : i = ℓq.length - 1 := by omega
                rw [this] at hu
                rw [hu] at hlast'
                exact (Option.some.inj hlast')
              subst hu'
              exact hpar
            · rw [if_neg (by omega)] at hv
              have hbig : 1 ≤ i + 1 - ℓq.length := by omega
              obtain ⟨k, hk⟩ : ∃ k, i + 1 - ℓq.length = k + 1 := ⟨i - ℓq.length, by omega⟩
              rw [hk] at hv
              simp at hv

/-!  ### Structural facts about `relax` and its fold  -/

theorem relax_const (current : Pos) (s : SearchState) (nb : Pos) :
    (relax current s nb).cols = s.cols ∧
    (relax current s nb).rows = s.rows ∧
    (relax current s nb).isObstacle = s.isObstacle ∧
    (relax current s nb).startP = s.startP ∧
    (relax current s nb).endP = s.endP ∧
    (relax current s nb).closedSet = s.closedSet ∧
    (relax current s nb).isExplored = s.isExplored := by
  unfold relax updateNbr
  dsimp only
  split_ifs <;> exact ⟨rfl, rfl, rfl, rfl, rfl, rfl, rfl⟩

theorem foldl_relax_const (current : Pos) (l : List Pos) (s : SearchState) :
    (l.foldl (relax current) s).cols = s.cols ∧
    (l.foldl (relax current) s).rows = s.rows ∧
    (l.foldl (relax current) s).isObstacle = s.isObstacle ∧
    (l.foldl (relax current) s).startP = s.startP ∧
    (l.foldl (relax current) s).endP = s.endP ∧
    (l.foldl (relax current) s).closedSet = s.closedSet ∧
    (l.foldl (relax current) s).isExplored = s.isExplored := by
  induction l generalizing s with
  | nil => exact ⟨rfl, rfl, rfl, rfl, rfl, rfl, rfl⟩
  | cons x t ih =>
      simp only [List.foldl_cons]
      obtain ⟨h1, h2, h3, h4, h5, h6, h7⟩ := relax_const current s x
      obtain ⟨g1, g2, g3, g4, g5, g6, g7⟩ := ih (relax current s x)
      exact ⟨g1.trans h1, g2.trans h2, g3.trans h3, g4.trans h4, g5.trans h5,
        g6.trans h6, g7.trans h7⟩

theorem relax_of_closed {current nb : Pos} {t : SearchState} (h : nb ∈ t.closedSet) :
    relax current t nb = t := by
  unfold relax
  rw [if_pos h]

theorem relax_of_no_improve {current nb : Pos} {t : SearchState}
    (h1 : nb ∉ t.closedSet) (h2 : nb ∈ t.openSet) (h3 : t.g nb ≤ t.g current + 1) :
    relax current t nb = t := by
  unfold relax
  dsimp only
  rw [if_neg h1, if_pos h2, if_pos h3]

theorem relax_of_improve {current nb : Pos} {t : SearchState}
    (h1 : nb ∉ t.closedSet) (h2 : nb ∈ t.openSet) (h3 : ¬ t.g nb ≤ t.g current + 1) :
    relax current t nb = updateNbr current nb (t.g current + 1) t := by
  unfold relax
  dsimp only
  rw [if_neg h1, if_pos h2, if_neg h3]

theorem relax_of_fresh {current nb : Pos} {t : SearchState}
    (h1 : nb ∉ t.closedSet) (h2 : nb ∉ t.openSet) :
    relax current t nb = updateNbr current nb (t.g current + 1)
      { t with openSet := t.openSet ++ [nb], isFrontier := upd t.isFrontier nb true } := by
  unfold relax
  dsimp only
  rw [if_neg h1, if_neg h2]

theorem updateNbr_g (current nb : Pos) (tg : Nat) (t : SearchState) :
    (updateNbr current nb tg t).g = upd t.g nb tg := rfl

theorem updateNbr_h (current nb : Pos) (tg : Nat) (t : SearchState) :
    (updateNbr current nb tg t).h = upd t.h nb (heuristic nb t.endP) := rfl

theorem updateNbr_f (current nb : Pos) (tg : Nat) (t : SearchState) :
    (updateNbr current nb tg t).f = upd t.f nb (tg + heuristic nb t.endP) := rfl

theorem updateNbr_parent (current nb : Pos) (tg : Nat) (t : SearchState) :
    (updateNbr current nb tg t).parent = upd t.parent nb (some current) := rfl

theorem updateNbr_openSet (current nb : Pos) (tg : Nat) (t : SearchState) :
    (updateNbr current nb tg t).openSet = t.openSet := rfl

theorem updateNbr_closedSet (current nb : Pos) (tg : Nat) (t : SearchState) :
    (updateNbr current nb tg t).closedSet = t.closedSet := rfl

/-- Relaxation of one improvable open neighbor keeps the mid-fold invariant. -/
theorem relax_preserves_improve {s1 t : SearchState} {current : Pos}
    {processed : List Pos} {nb : Pos}
    (hF : FoldInv s1 current t processed) (hcur : current ∈ s1.closedSet)
    (hH1 : heuristic current nb = 1)
    (h1 : nb ∉ t.closedSet) (h2 : nb ∈ t.openSet) (h3 : ¬ t.g nb ≤ t.g current + 1) :
    FoldInv s1 current (updateNbr current nb (t.g current + 1) t) (processed ++ [nb]) := by
  have hcurT : current ∈ t.closedSet := by rw [hF.constClosed]; exact hcur
  have hgcur : t.g current = s1.g current := (hF.closedFrozen current hcurT).1
  have hnc : nb ≠ current := by
    rintro rfl
    rw [heuristic_self] at hH1
    exact absurd hH1 (by omega)
  have hstart_ne : t.startP ≠ nb := by
    intro he
    have h0 : t.g nb = 0 := by rw [← he]; exact hF.core.startG
    omega
  have hcurmem : memberOf t current := Or.inr hcurT
  have htglow : heuristic t.startP nb ≤ t.g current + 1 := by
    have ht := heuristic_triangle t.startP current nb
    have hg := hF.core.gLower current hcurmem
    omega
  refine ⟨⟨hF.core.openNodup, hF.core.closedNodup, hF.core.disj, hF.core.memValid,
    hF.core.startMem, ?_, ?_, hF.core.startValid, hF.core.endValid,
    ?_, ?_, ?_, ?_⟩, hF.constCols, hF.constRows, hF.constObst, hF.constStart, hF.constEnd,
    hF.constClosed, hF.constExplored, hF.openExt, ?_, ?_, ?_, ?_⟩
  · show upd t.g nb _ t.startP = 0
    rw [upd_ne _ _ hstart_ne]
    exact hF.core.startG
  · show upd t.parent nb _ t.startP = none
    rw [upd_ne _ _ hstart_ne]
    exact hF.core.startPar
  · intro p hp
    show heuristic t.startP p ≤ upd t.g nb _ p
    by_cases hpnb : p = nb
    · subst hpnb
      rw [upd_self]
      exact htglow
    · rw [upd_ne _ _ hpnb]
      exact hF.core.gLower p hp
  · intro p hp
    show upd t.h nb _ p = heuristic p t.endP
    by_cases hpnb : p = nb
    · subst hpnb
      rw [upd_self]
    · rw [upd_ne _ _ hpnb]
      exact hF.core.cohH p hp
  · intro p hp
    show upd t.f nb _ p = upd t.g nb _ p + upd t.h nb _ p
    by_cases hpnb : p = nb
    · subst hpnb
      rw [upd_self, upd_self, upd_self]
    · rw [upd_ne _ _ hpnb, upd_ne _ _ hpnb, upd_ne _ _ hpnb]
      exact hF.core.cohF p hp
  · intro p hp hpne
    by_cases hpnb : p = nb
    · subst hpnb
      refine ⟨current, ?_, hcurT, ?_⟩
      · show upd t.parent p _ p = some current
        rw [upd_self]
      · show upd t.g p _ p = upd t.g p _ current + 1
        rw [upd_self, upd_ne _ _ hnc.symm]
    · obtain ⟨q, hq1, hq2, hq3⟩ := hF.core.parentInv p hp hpne
      have hqnb : q ≠ nb := by
        intro he
        exact h1 (he ▸ hq2)
      refine ⟨q, ?_, hq2, ?_⟩
      · show upd t.parent nb _ p = some q
        rw [upd_ne _ _ hpnb]
        exact hq1
      · show upd t.g nb _ p = upd t.g nb _ q + 1
        rw [upd_ne _ _ hpnb, upd_ne _ _ hqnb]
        exact hq3
  · intro p hp
    have hpnb : p ≠ nb := by
      intro he
      exact h1 (he ▸ hp)
    have hold := hF.closedFrozen p hp
    refine ⟨?_, ?_, ?_, ?_⟩
    · show upd t.g nb _ p = s1.g p
      rw [upd_ne _ _ hpnb]
      exact hold.1
    · show upd t.h nb _ p = s1.h p
      rw [upd_ne _ _ hpnb]
      exact hold.2.1
    · show upd t.f nb _ p = s1.f p
      rw [upd_ne _ _ hpnb]
      exact hold.2.2.1
    · show upd t.parent nb _ p = s1.parent p
      rw [upd_ne _ _ hpnb]
      exact hold.2.2.2
  · intro p hp
    show upd t.g nb _ p ≤ s1.g p
    by_cases hpnb : p = nb
    · subst hpnb
      rw [upd_self]
      have := hF.openGmono p hp
      omega
    · rw [upd_ne _ _ hpnb]
      exact hF.openGmono p hp
  · intro m hm
    rcases List.mem_append.mp hm with hm | hm
    · rcases hF.processedProp m hm with hc | ⟨ho, hg⟩
      · exact Or.inl hc
      · refine Or.inr ⟨ho, ?_⟩
        show upd t.g nb _ m ≤ s1.g current + 1
        by_cases hmnb : m = nb
        · subst hmnb
          rw [upd_self, hgcur]
        · rw [upd_ne _ _ hmnb]
          exact hg
    · rw [List.mem_singleton] at hm
      subst hm
      refine Or.inr ⟨h2, ?_⟩
      show upd t.g m _ m ≤ s1.g current + 1
      rw [upd_self, hgcur]
  · intro z hz hzne m hm
    have hznb : z ≠ nb := by
      intro he
      exact h1 (he ▸ hz)
    rcases hF.oldClosed z hz hzne m hm with hc | ⟨ho, hg⟩
    · exact Or.inl hc
    · refine Or.inr ⟨ho, ?_⟩
      show upd t.g nb _ m ≤ upd t.g nb _ z + 1
      rw [upd_ne _ _ hznb]
      by_cases hmnb : m = nb
      · subst hmnb
        rw [upd_self]
        omega
      · rw [upd_ne _ _ hmnb]
        exact hg

/-- Relaxation of a fresh neighbor (admitted to the open set) keeps the
mid-fold invariant. -/
theorem relax_preserves_fresh {s1 t : SearchState} {current : Pos}
    {processed : List Pos} {nb : Pos}
    (hF : FoldInv s1 current t processed) (hcur : current ∈ s1.closedSet)
    (hH1 : heuristic current nb = 1)
    (hb1 : nb.1 < s1.cols) (hb2 : nb.2 < s1.rows) (hob : s1.isObstacle nb = false)
    (h1 : nb ∉ t.closedSet) (h2 : nb ∉ t.openSet) :
    FoldInv s1 current
      (updateNbr current nb (t.g current + 1)
        { t with openSet := t.openSet ++ [nb], isFrontier := upd t.isFrontier nb true })
      (processed ++ [nb]) := by
  have hcurT : current ∈ t.closedSet := by rw [hF.constClosed]; exact hcur
  have hgcur : t.g current = s1.g current := (hF.closedFrozen current hcurT).1
  have hnc : nb ≠ current := by
    rintro rfl
    rw [heuristic_self] at hH1
    exact absurd hH1 (by omega)
  have hstart_ne : t.startP ≠ nb := by
    intro he
    rcases hF.core.startMem with hs | hs
    · exact h2 (he ▸ hs)
    · exact h1 (he ▸ hs)
  have hcurmem : memberOf t current := Or.inr hcurT
  have htglow : heuristic t.startP nb ≤ t.g current + 1 := by
    have ht := heuristic_triangle t.startP current nb
    have hg := hF.core.gLower current hcurmem
    omega
  have hb1' : nb.1 < t.cols := by rw [hF.constCols]; exact hb1
  have hb2' : nb.2 < t.rows := by rw [hF.constRows]; exact hb2
  have hob' : t.isObstacle nb = false := by rw [hF.constObst]; exact hob
  have hmemext : ∀ p, p ∈ t.openSet ++ [nb] → p = nb ∨ p ∈ t.openSet := by
    intro p hp
    rcases List.mem_append.mp hp with hp | hp
    · exact Or.inr hp
    · exact Or.inl (List.mem_singleton.mp hp)
  refine ⟨⟨nodup_append_singleton hF.core.openNodup h2, hF.core.closedNodup, ?_, ?_,
    ?_, ?_, ?_, hF.core.startValid, hF.core.endValid,
    ?_, ?_, ?_, ?_⟩, hF.constCols, hF.constRows, hF.constObst, hF.constStart, hF.constEnd,
    hF.constClosed, hF.constExplored, ?_, ?_, ?_, ?_, ?_⟩
  · intro p hp
    rcases hmemext p hp with rfl | hp'
    · exact h1
    · exact hF.core.disj p hp'
  · intro p hp
    rcases hp with hp | hp
    · rcases hmemext p hp with rfl | hp'
      · exact Or.inr ⟨hb1', hb2', hob'⟩
      · exact hF.core.memValid p (Or.inl hp')
    · exact hF.core.memValid p (Or.inr hp)
  · rcases hF.core.startMem with hs | hs
    · exact Or.inl (List.mem_append_left _ hs)
    · exact Or.inr hs
  · show upd t.g nb _ t.startP = 0
    rw [upd_ne _ _ hstart_ne]
    exact hF.core.startG
  · show upd t.parent nb _ t.startP = none
    rw [upd_ne _ _ hstart_ne]
    exact hF.core.startPar
  · intro p hp
    show heuristic t.startP p ≤ upd t.g nb _ p
    by_cases hpnb : p = nb
    · subst hpnb
      rw [upd_self]
      exact htglow
    · rw [upd_ne _ _ hpnb]
      refine hF.core.gLower p ?_
      rcases hp with hp | hp
      · rcases hmemext p hp with rfl | hp'
        · exact absurd rfl hpnb
        · exact Or.inl hp'
      · exact Or.inr hp
  · intro p hp
    show upd t.h nb _ p = heuristic p t.endP
    by_cases hpnb : p = nb
    · subst hpnb
      rw [upd_self]
    · rw [upd_ne _ _ hpnb]
      refine hF.core.cohH p ?_
      rcases hp with hp | hp
      · rcases hmemext p hp with rfl | hp'
        · exact absurd rfl hpnb
        · exact Or.inl hp'
      · exact Or.inr hp
  · intro p hp
    show upd t.f nb _ p = upd t.g nb _ p + upd t.h nb _ p
    by_cases hpnb : p = nb
    · subst hpnb
      rw [upd_self, upd_self, upd_self]
    · rw [upd_ne _ _ hpnb, upd_ne _ _ hpnb, upd_ne _ _ hpnb]
      refine hF.core.cohF p ?_
      rcases hp with hp | hp
      · rcases hmemext p hp with rfl | hp'
        · exact absurd rfl hpnb
        · exact Or.inl hp'
      · exact Or.inr hp
  · intro p hp hpne
    by_cases hpnb : p = nb
    · subst hpnb
      refine ⟨current, ?_, hcurT, ?_⟩
      · show upd t.parent p _ p = some current
        rw [upd_self]
      · show upd t.g p _ p = upd t.g p _ current + 1
        rw [upd_self, upd_ne _ _ hnc.symm]
    · have hp' : memberOf t p := by
        rcases hp with hp | hp
        · rcases hmemext p hp with rfl | hp''
          · exact absurd rfl hpnb
          · exact Or.inl hp''
        · exact Or.inr hp
      obtain ⟨q, hq1, hq2, hq3⟩ := hF.core.parentInv p hp' hpne
      have hqnb : q ≠ nb := by
        intro he
        exact h1 (he ▸ hq2)
      refine ⟨q, ?_, hq2, ?_⟩
      · show upd t.parent nb _ p = some q
        rw [upd_ne _ _ hpnb]
        exact hq1
      · show upd t.g nb _ p = upd t.g nb _ q + 1
        rw [upd_ne _ _ hpnb, upd_ne _ _ hqnb]
        exact hq3
  · obtain ⟨ladd, hladd⟩ := hF.openExt
    refine ⟨ladd ++ [nb], ?_⟩
    show t.openSet ++ [nb] = s1.openSet ++ (ladd ++ [nb])
    rw [hladd, List.append_assoc]
  · intro p hp
    have hpnb : p ≠ nb := by
      intro he
      exact h1 (he ▸ hp)
    have hold := hF.closedFrozen p hp
    refine ⟨?_, ?_, ?_, ?_⟩
    · show upd t.g nb _ p = s1.g p
      rw [upd_ne _ _ hpnb]
      exact hold.1
    · show upd t.h nb _ p = s1.h p
      rw [upd_ne _ _ hpnb]
      exact hold.2.1
    · show upd t.f nb _ p = s1.f p
      rw [upd_ne _ _ hpnb]
      exact hold.2.2.1
    · show upd t.parent nb _ p = s1.parent p
      rw [upd_ne _ _ hpnb]
      exact hold.2.2.2
  · intro p hp
    have hpt : p ∈ t.openSet := by
      obtain ⟨ladd, hladd⟩ := hF.openExt
      rw [hladd]
      exact List.mem_append_left _ hp
    have hpnb : p ≠ nb := by
      intro he
      exact h2 (he ▸ hpt)
    show upd t.g nb _ p ≤ s1.g p
    rw [upd_ne _ _ hpnb]
    exact hF.openGmono p hp
  · intro m hm
    rcases List.mem_append.mp hm with hm | hm
    · rcases hF.processedProp m hm with hc | ⟨ho, hg⟩
      · exact Or.inl hc
      · have hmnb : m ≠ nb := by
          intro he
          exact h2 (he ▸ ho)
        refine Or.inr ⟨List.mem_append_left _ ho, ?_⟩
        show upd t.g nb _ m ≤ s1.g current + 1
        rw [upd_ne _ _ hmnb]
        exact hg
    · rw [List.mem_singleton] at hm
      subst hm
      refine Or.inr ⟨List.mem_append_right _ (List.mem_singleton.mpr rfl), ?_⟩
      show upd t.g m _ m ≤ s1.g current + 1
      rw [upd_self, hgcur]
  · intro z hz hzne m hm
    have hznb : z ≠ nb := by
      intro he
      exact h1 (he ▸ hz)
    rcases hF.oldClosed z hz hzne m hm with hc | ⟨ho, hg⟩
    · exact Or.inl hc
    · have hmnb : m ≠ nb := by
        intro he
        exact h2 (he ▸ ho)
      refine Or.inr ⟨List.mem_append_left _ ho, ?_⟩
      show upd t.g nb _ m ≤ upd t.g nb _ z + 1
      rw [upd_ne _ _ hmnb, upd_ne _ _ hznb]
      exact hg

/-- One `relax` call preserves the mid-fold invariant. -/
theorem relax_preserves {s1 t : SearchState} {current : Pos}
    {processed : List Pos} {nb : Pos}
    (hF : FoldInv s1 current t processed) (hcur : current ∈ s1.closedSet)
    (hnb : nb ∈ getNeighbors s1.cols s1.rows s1.isObstacle current) :
    FoldInv s1 current (relax current t nb) (processed ++ [nb]) := by
  obtain ⟨hH1, hb1, hb2, hob⟩ := mem_getNeighbors.mp hnb
  by_cases h1 : nb ∈ t.closedSet
  · rw [relax_of_closed h1]
    refine ⟨hF.core, hF.constCols, hF.constRows, hF.constObst, hF.constStart, hF.constEnd,
      hF.constClosed, hF.constExplored, hF.openExt, hF.closedFrozen, hF.openGmono, ?_,
      hF.oldClosed⟩
    intro m hm
    rcases List.mem_append.mp hm with hm | hm
    · exact hF.processedProp m hm
    · rw [List.mem_singleton] at hm
      subst hm
      exact Or.inl h1
  · by_cases h2 : nb ∈ t.openSet
    · by_cases h3 : t.g nb ≤ t.g current + 1
      · rw [relax_of_no_improve h1 h2 h3]
        refine ⟨hF.core, hF.constCols, hF.constRows, hF.constObst, hF.constStart, hF.constEnd,
          hF.constClosed, hF.constExplored, hF.openExt, hF.closedFrozen, hF.openGmono, ?_,
          hF.oldClosed⟩
        intro m hm
        rcases List.mem_append.mp hm with hm | hm
        · exact hF.processedProp m hm
        · rw [List.mem_singleton] at hm
          subst hm
          have hcurT : current ∈ t.closedSet := by rw [hF.constClosed]; exact hcur
          have hgcur : t.g current = s1.g current := (hF.closedFrozen current hcurT).1
          refine Or.inr ⟨h2, ?_⟩
          rw [← hgcur]
          exact h3
      · rw [relax_of_improve h1 h2 h3]
        exact relax_preserves_improve hF hcur hH1 h1 h2 h3
    · rw [relax_of_fresh h1 h2]
      exact relax_preserves_fresh hF hcur hH1 hb1 hb2 hob h1 h2

/-- Folding `relax` over any sublist of the neighbor list preserves the
mid-fold invariant, accumulating the processed neighbors. -/
theorem foldl_relax_preserves {s1 : SearchState} {current : Pos}
    (hcur : current ∈ s1.closedSet) :
    ∀ (l : List Pos) (t : SearchState) (processed : List Pos),
      (∀ nb ∈ l, nb ∈ getNeighbors s1.cols s1.rows s1.isObstacle current) →
      FoldInv s1 current t processed →
      FoldInv s1 current (l.foldl (relax current) t) (processed ++ l) := by
  intro l
  induction l with
  | nil =>
      intro t processed _ hF
      simpa using hF
  | cons x xs ih =>
      intro t processed hl hF
      simp only [List.foldl_cons]
      have hx := hl x (List.mem_cons_self x xs)
      have hF' := relax_preserves hF hcur hx
      have hxs : ∀ nb ∈ xs, nb ∈ getNeighbors s1.cols s1.rows s1.isObstacle current :=
        fun nb hnb => hl nb (List.mem_cons_of_mem x hnb)
      have := ih (relax current t x) (processed ++ [x]) hxs hF'
      simpa [List.append_assoc] using this

/-!  ### One whole loop iteration  -/

/-- Moving the selected open cell into the closed set keeps the core
invariants. -/
theorem expand_core {s : SearchState} (hInv : Inv s) {c : Pos} {i : Nat}
    (hget : s.openSet[i]? = some c) :
    InvCore { s with openSet := s.openSet.eraseIdx i,
                     closedSet := s.closedSet ++ [c],
                     isExplored := upd s.isExplored c true } := by
  have hcuropen : c ∈ s.openSet := List.mem_iff_getElem?.mpr ⟨i, hget⟩
  have hnotclosed : c ∉ s.closedSet := hInv.disj c hcuropen
  have hcnotinerase : c ∉ s.openSet.eraseIdx i :=
    not_mem_eraseIdx_self hInv.openNodup hget
  have hmem1 : ∀ p, p ∈ s.openSet.eraseIdx i ∨ p ∈ s.closedSet ++ [c] → memberOf s p := by
    intro p hp
    rcases hp with hp | hp
    · exact Or.inl (mem_of_mem_eraseIdx hp)
    · rcases List.mem_append.mp hp with hp | hp
      · exact Or.inr hp
      · rw [List.mem_singleton] at hp
        subst hp
        exact Or.inl hcuropen
  refine ⟨nodup_eraseIdx hInv.openNodup i,
    nodup_append_singleton hInv.closedNodup hnotclosed, ?_, ?_, ?_,
    hInv.startG, hInv.startPar, hInv.startValid, hInv.endValid, ?_, ?_, ?_, ?_⟩
  · intro p hp
    have hpo : p ∈ s.openSet := mem_of_mem_eraseIdx hp
    have hpc : p ≠ c := by
      intro he
      exact hcnotinerase (he ▸ hp)
    intro hmem
    rcases List.mem_append.mp hmem with hmem | hmem
    · exact hInv.disj p hpo hmem
    · exact hpc (List.mem_singleton.mp hmem)
  · intro p hp
    exact hInv.memValid p (hmem1 p hp)
  · rcases hInv.startMem with hs | hs
    · by_cases hsc : s.startP = c
      · exact Or.inr (List.mem_append_right _ (List.mem_singleton.mpr hsc))
      · exact Or.inl (mem_eraseIdx_of_ne hs hget hsc)
    · exact Or.inr (List.mem_append_left _ hs)
  · intro p hp
    exact hInv.gLower p (hmem1 p hp)
  · intro p hp
    exact hInv.cohH p (hmem1 p hp)
  · intro p hp
    exact hInv.cohF p (hmem1 p hp)
  · intro p hp hne
    obtain ⟨q, hq1, hq2, hq3⟩ := hInv.parentInv p (hmem1 p hp) hne
    exact ⟨q, hq1, List.mem_append_left _ hq2, hq3⟩

/-- An `advance` iteration preserves the full invariant and produces the
step facts about the expanded cell. -/
theorem stepOnce_advance {s s2 : SearchState} (hInv : Inv s)
    (hstep : stepOnce s = .advance s2) :
    Inv s2 ∧ ∃ current, StepFacts s s2 current := by
  unfold stepOnce at hstep
  cases hsel : selectMin s.f s.openSet with
  | none =>
      rw [hsel] at hstep
      exact absurd hstep (by simp)
  | some ci =>
      rcases ci with ⟨current, idx⟩
      rw [hsel] at hstep
      dsimp only at hstep
      by_cases hend : current = s.endP
      · rw [if_pos hend] at hstep
        exact absurd hstep (by simp)
      · rw [if_neg hend] at hstep
        have hopen_ne : s.openSet ≠ [] := by
          intro hnil
          rw [(selectMin_eq_none_iff s.f s.openSet).mpr hnil] at hsel
          exact absurd hsel (by simp)
        obtain ⟨c, i, hceq, hget, hmin, hstrict⟩ := selectMin_spec s.f s.openSet hopen_ne
        rw [hceq] at hsel
        have hcc : c = current ∧ i = idx := by
          have := Option.some.inj hsel
          exact ⟨congrArg Prod.fst this, congrArg Prod.snd this⟩
        obtain ⟨rfl, rfl⟩ := hcc
        have hcuropen : c ∈ s.openSet := List.mem_iff_getElem?.mpr ⟨i, hget⟩
        have hnotclosed : c ∉ s.closedSet := hInv.disj c hcuropen
        have hcnotinerase : c ∉ s.openSet.eraseIdx i :=
          not_mem_eraseIdx_self hInv.openNodup hget
        set S1 : SearchState :=
          { s with openSet := s.openSet.eraseIdx i,
                   closedSet := s.closedSet ++ [c],
                   isExplored := upd s.isExplored c true } with hS1
        have hmem1 : ∀ p, memberOf S1 p → memberOf s p := by
          intro p hp
          rcases hp with hp | hp
          · exact Or.inl (mem_of_mem_eraseIdx hp)
          · rcases List.mem_append.mp hp with hp | hp
            · exact Or.inr hp
            · rw [List.mem_singleton] at hp
              subst hp
              exact Or.inl hcuropen
        have hcinS1 : c ∈ S1.closedSet :=
          List.mem_append_right _ (List.mem_singleton.mpr rfl)
        have hcore1 : InvCore S1 := expand_core hInv hget
        have hFold0 : FoldInv S1 c S1 [] := by
          refine ⟨hcore1, rfl, rfl, rfl, rfl, rfl, rfl, rfl, ⟨[], (List.append_nil _).symm⟩,
            ?_, ?_, ?_, ?_⟩
          · intro p _
            exact ⟨rfl, rfl, rfl, rfl⟩
          · intro p _
            exact le_refl _
          · intro m hm
            simp at hm
          · intro z hz hzne m hm
            have hz' : z ∈ s.closedSet := by
              rcases List.mem_append.mp hz with hz | hz
              · exact hz
              · exact absurd (List.mem_singleton.mp hz) hzne
            rcases hInv.closedExpanded z hz' m hm with hc | ⟨ho, hg⟩
            · exact Or.inl (List.mem_append_left _ hc)
            · by_cases hmc : m = c
              · exact Or.inl (hmc ▸ hcinS1)
              · exact Or.inr ⟨mem_eraseIdx_of_ne ho hget hmc, hg⟩
        have hFold := foldl_relax_preserves hcinS1
          (getNeighbors S1.cols S1.rows S1.isObstacle c) S1 [] (fun nb h => h) hFold0
        have hfeq : (getNeighbors S1.cols S1.rows S1.isObstacle c).foldl (relax c) S1 = s2 :=
          StepOut.advance.inj hstep
        rw [hfeq] at hFold
        simp only [List.nil_append] at hFold
        have hgc2 : s2.g c = s.g c := (hFold.closedFrozen c (by
          rw [hFold.constClosed]; exact hcinS1)).1
        have hclosedEq : s2.closedSet = s.closedSet ++ [c] := hFold.constClosed
        have hend2 : s2.endP = s.endP := hFold.constEnd
        refine ⟨⟨hFold.core, ?_, ?_⟩, c, ?_⟩
        · rw [hclosedEq, hend2]
          intro hmem
          rcases List.mem_append.mp hmem with hmem | hmem
          · exact hInv.endNotClosed hmem
          · exact hend (List.mem_singleton.mp hmem).symm
        · intro z hz m hm
          by_cases hzc : z = c
          · subst hzc
            have := hFold.processedProp m (by
              have hcols : s2.cols = s.cols := hFold.constCols
              have hrows : s2.rows = s.rows := hFold.constRows
              have hobst : s2.isObstacle = s.isObstacle := hFold.constObst
              rw [hcols, hrows, hobst] at hm
              exact hm)
            rcases this with hc | ⟨ho, hg⟩
            · exact Or.inl hc
            · refine Or.inr ⟨ho, ?_⟩
              rw [hgc2]
              exact hg
          · rw [hFold.constClosed] at hz
            exact hFold.oldClosed z (hFold.constClosed ▸ hz) hzc m hm
        · refine ⟨hcuropen, hend, hmin, hclosedEq, hFold.constCols, hFold.constRows,
            hFold.constObst, hFold.constStart, hFold.constEnd, ?_, ?_, ?_, ?_⟩
          · intro p hp hpne
            have hp1 : p ∈ S1.openSet := mem_eraseIdx_of_ne hp hget hpne
            obtain ⟨ladd, hladd⟩ := hFold.openExt
            rw [hladd]
            exact List.mem_append_left _ hp1
          · intro p hp
            by_cases hpc : p = c
            · subst hpc
              rw [hgc2]
            · have hp1 : p ∈ S1.openSet := mem_eraseIdx_of_ne hp hget hpc
              exact hFold.openGmono p hp1
          · intro p hp
            have hp1 : p ∈ s2.closedSet := by
              rw [hFold.constClosed]
              rcases hp with hp | hp
              · exact List.mem_append_left _ hp
              · exact hp ▸ hcinS1
            exact (hFold.closedFrozen p hp1).1
          · intro m hm
            have hm' : m ∈ getNeighbors S1.cols S1.rows S1.isObstacle c := hm
            exact hFold.processedProp m hm'

/-- A `reachedEnd` iteration: the end cell was the selected minimum-`f` open
cell; the final state keeps the core invariants and freezes costs/parents. -/
theorem stepOnce_reachedEnd {s s1 : SearchState} (hInv : Inv s)
    (hstep : stepOnce s = .reachedEnd s1) :
    s.endP ∈ s.openSet ∧ (∀ q ∈ s.openSet, s.f s.endP ≤ s.f q) ∧
    InvCore s1 ∧
    s1.closedSet = s.closedSet ++ [s.endP] ∧
    s1.g = s.g ∧ s1.parent = s.parent ∧ s1.f = s.f ∧ s1.h = s.h ∧
    s1.cols = s.cols ∧ s1.rows = s.rows ∧ s1.startP = s.startP ∧ s1.endP = s.endP ∧
    s1.isObstacle = s.isObstacle := by
  unfold stepOnce at hstep
  cases hsel : selectMin s.f s.openSet with
  | none =>
      rw [hsel] at hstep
      exact absurd hstep (by simp)
  | some ci =>
      rcases ci with ⟨current, idx⟩
      rw [hsel] at hstep
      dsimp only at hstep
      by_cases hend : current = s.endP
      · rw [if_pos hend] at hstep
        have hS1 := StepOut.reachedEnd.inj hstep
        have hopen_ne : s.openSet ≠ [] := by
          intro hnil
          rw [(selectMin_eq_none_iff s.f s.openSet).mpr hnil] at hsel
          exact absurd hsel (by simp)
        obtain ⟨c, i, hceq, hget, hmin, hstrict⟩ := selectMin_spec s.f s.openSet hopen_ne
        rw [hceq] at hsel
        have hcc : c = current ∧ i = idx := by
          have := Option.some.inj hsel
          exact ⟨congrArg Prod.fst this, congrArg Prod.snd this⟩
        obtain ⟨rfl, rfl⟩ := hcc
        have hcuropen : c ∈ s.openSet := List.mem_iff_getElem?.mpr ⟨i, hget⟩
        rw [← hS1]
        refine ⟨hend ▸ hcuropen, ?_, expand_core hInv hget, ?_, rfl, rfl, rfl, rfl, rfl,
          rfl, rfl, rfl, rfl⟩
        · rw [← hend]
          exact hmin
        · show s.closedSet ++ [c] = s.closedSet ++ [s.endP]
          rw [hend]
      · rw [if_neg hend] at hstep
        exact absurd hstep (by simp)

/-- The loop signals an empty open set exactly when it is empty. -/
theorem stepOnce_empty_iff (s : SearchState) : stepOnce s = .empty ↔ s.openSet = [] := by
  constructor
  · intro h
    by_contra hne
    obtain ⟨c, i, hceq, _, _, _⟩ := selectMin_spec s.f s.openSet hne
    unfold stepOnce at h
    rw [hceq] at h
    dsimp only at h
    split_ifs at h <;> simp at h
  · intro h
    unfold stepOnce
    rw [(selectMin_eq_none_iff s.f s.openSet).mpr h]

/-- The initialized search state satisfies the full invariant. -/
theorem initSearch_inv {cols rows : Nat} {obst : Pos → Bool} {a b : Pos}
    (ha1 : a.1 < cols) (ha2 : a.2 < rows) (hb1 : b.1 < cols) (hb2 : b.2 < rows) :
    Inv (initSearch cols rows obst a b) := by
  have hmem : ∀ p, memberOf (initSearch cols rows obst a b) p → p = a := by
    intro p hp
    rcases hp with hp | hp
    · exact List.mem_singleton.mp hp
    · simp [initSearch] at hp
  refine ⟨⟨List.nodup_singleton a, List.nodup_nil, ?_, ?_, ?_, ?_, rfl,
    ⟨ha1, ha2⟩, ⟨hb1, hb2⟩, ?_, ?_, ?_, ?_⟩, ?_, ?_⟩
  · intro p _
    simp [initSearch]
  · intro p hp
    exact Or.inl (hmem p hp)
  · exact Or.inl (List.mem_singleton.mpr rfl)
  · simp [initSearch, upd]
  · intro p hp
    rw [hmem p hp]
    simp [initSearch, upd]
  · intro p hp
    rw [hmem p hp]
    simp [initSearch, upd]
  · intro p hp
    rw [hmem p hp]
    simp [initSearch, upd]
  · intro p hp hne
    exact absurd (hmem p hp) hne
  · simp [initSearch]
  · intro z hz
    simp [initSearch] at hz

/-- On an obstacle-free grid the initialized search state also satisfies the
obstacle-free extras. -/
theorem initSearch_invOF {cols rows : Nat} {obst : Pos → Bool} {a b : Pos}
    (ha1 : a.1 < cols) (ha2 : a.2 < rows) (hb1 : b.1 < cols) (hb2 : b.2 < rows)
    (hfree : ∀ p, obst p = false) :
    InvOF (initSearch cols rows obst a b) := by
  refine ⟨initSearch_inv ha1 ha2 hb1 hb2, hfree, ?_, ?_⟩
  · intro z hz
    simp [initSearch] at hz
  · refine ⟨a, List.mem_singleton.mpr rfl, ?_, ?_⟩
    · show heuristic a a + heuristic a b = heuristic a b
      rw [heuristic_self]
      omega
    · show upd (fun _ => 0) a 0 a = heuristic a a
      rw [upd_self, heuristic_self]

/-- On an obstacle-free grid, from any closed cell on an optimal corridor one
can walk toward the goal to an open cell on an optimal corridor with tight
cost. -/
theorem walk_to_open_witness {s2 : SearchState} (hInv : Inv s2)
    (hfree : ∀ p, s2.isObstacle p = false)
    (hFB : ∀ z ∈ s2.closedSet, s2.g z + heuristic z s2.endP ≤ heuristic s2.startP s2.endP) :
    ∀ k w, w ∈ s2.closedSet →
      heuristic s2.startP w + heuristic w s2.endP = heuristic s2.startP s2.endP →
      heuristic w s2.endP ≤ k →
      ∃ w', w' ∈ s2.openSet ∧
        heuristic s2.startP w' + heuristic w' s2.endP = heuristic s2.startP s2.endP ∧
        s2.g w' = heuristic s2.startP w' := by
  intro k
  induction k with
  | zero =>
      intro w hw hopt hk
      have hw0 : heuristic w s2.endP = 0 := by omega
      have : w = s2.endP := heuristic_eq_zero hw0
      exact absurd (this ▸ hw) hInv.endNotClosed
  | succ k ih =>
      intro w hw hopt hk
      by_cases hle : heuristic w s2.endP ≤ k
      · exact ih w hw hopt hle
      · have hne : w ≠ s2.endP := by
          intro he
          rw [he, heuristic_self] at hle
          omega
        have hgtight : s2.g w = heuristic s2.startP w := by
          have h1 := hFB w hw
          have h2 := hInv.gLower w (Or.inr hw)
          omega
        obtain ⟨w', hww', haw', hopt', hw'1, hw'2⟩ :=
          exists_next_toward hInv.startValid.1 hInv.startValid.2
            hInv.endValid.1 hInv.endValid.2 hopt hne
        have hw'nb : w' ∈ getNeighbors s2.cols s2.rows s2.isObstacle w :=
          mem_getNeighbors.mpr ⟨hww', hw'1, hw'2, hfree w'⟩
        rcases hInv.closedExpanded w hw w' hw'nb with hc | ⟨ho, hg⟩
        · refine ih w' hc hopt' ?_
          omega
        · refine ⟨w', ho, hopt', ?_⟩
          have hlow := hInv.gLower w' (Or.inl ho)
          omega

/-- An `advance` iteration preserves the obstacle-free extras. -/
theorem stepOnce_advance_OF {s s2 : SearchState} (hOF : InvOF s)
    (hstep : stepOnce s = .advance s2) :
    InvOF s2 ∧ s2.closedSet.length = s.closedSet.length + 1 := by
  obtain ⟨hInv2, current, hSF⟩ := stepOnce_advance hOF.toInv hstep
  obtain ⟨w, hwopen, hwopt, hwg⟩ := hOF.witness
  have hstartEq : s2.startP = s.startP := hSF.constStart
  have hendEq : s2.endP = s.endP := hSF.constEnd
  have hfw : s.f w = heuristic s.startP s.endP := by
    have hHw := hOF.cohH w (Or.inl hwopen)
    have hFw := hOF.cohF w (Or.inl hwopen)
    rw [hFw, hHw, hwg]
    exact hwopt
  have hcurmem : memberOf s current := Or.inl hSF.curMemOpen
  have hfcur : s.g current + heuristic current s.endP ≤ heuristic s.startP s.endP := by
    have h1 := hSF.minf w hwopen
    have h2 := hOF.cohF current hcurmem
    have h3 := hOF.cohH current hcurmem
    rw [h2, h3] at h1
    rw [hfw] at h1
    exact h1
  have hFB2 : ∀ z ∈ s2.closedSet,
      s2.g z + heuristic z s2.endP ≤ heuristic s2.startP s2.endP := by
    intro z hz
    rw [hstartEq, hendEq]
    rw [hSF.closedEq] at hz
    rcases List.mem_append.mp hz with hz | hz
    · rw [hSF.gFrozenClosed z (Or.inl hz)]
      exact hOF.closedFBound z hz
    · rw [List.mem_singleton] at hz
      subst hz
      rw [hSF.gFrozenClosed z (Or.inr rfl)]
      exact hfcur
  have hfree2 : ∀ p, s2.isObstacle p = false := by
    intro p
    rw [hSF.constObst]
    exact hOF.obstFree p
  refine ⟨⟨hInv2, hfree2, hFB2, ?_⟩, ?_⟩
  · by_cases hwc : w = current
    · subst hwc
      have hwclosed : w ∈ s2.closedSet := by
        rw [hSF.closedEq]
        exact List.mem_append_right _ (List.mem_singleton.mpr rfl)
      have hwopt2 : heuristic s2.startP w + heuristic w s2.endP =
          heuristic s2.startP s2.endP := by
        rw [hstartEq, hendEq]
        exact hwopt
      exact walk_to_open_witness hInv2 hfree2 hFB2 (heuristic w s2.endP) w hwclosed
        hwopt2 (le_refl _)
    · refine ⟨w, hSF.openSurvive w hwopen hwc, ?_, ?_⟩
      · rw [hstartEq, hendEq]
        exact hwopt
      · have h1 : s2.g w ≤ s.g w := hSF.gMono w hwopen
        have h2 : heuristic s2.startP w ≤ s2.g w :=
          hInv2.gLower w (Or.inl (hSF.openSurvive w hwopen hwc))
        rw [hstartEq] at h2 ⊢
        omega
  · rw [hSF.closedEq]
    simp

/-- Every cell in the closed set is in bounds, so the closed set cannot
outgrow the grid. -/
theorem closed_le_size {s : SearchState} (hc : InvCore s) :
    s.closedSet.length ≤ s.cols * s.rows := by
  refine length_le_of_nodup_of_bounds hc.closedNodup ?_
  intro p hp
  rcases hc.memValid p (Or.inr hp) with hp' | hp'
  · rw [hp']
    exact hc.startValid
  · exact ⟨hp'.1, hp'.2.1⟩

/-- Every known cell's cost chain fits inside the grid:
`g p + 1 ≤ cols * rows`. -/
theorem g_le_size {s : SearchState} (hc : InvCore s) {p : Pos}
    (hmem : memberOf s p) : s.g p + 1 ≤ s.cols * s.rows := by
  obtain ⟨hlen, _, _, hnodup, hmemb, _⟩ :=
    chain_spec hc (s.g p) p hmem (le_refl _) (s.g p + 1) (le_refl _)
  have hb : ∀ r ∈ walkParents (s.g p + 1) (some p) s.parent,
      r.1 < s.cols ∧ r.2 < s.rows := by
    intro r hr
    rcases hc.memValid r (hmemb r hr).1 with hr' | hr'
    · rw [hr']
      exact hc.startValid
    · exact ⟨hr'.1, hr'.2.1⟩
  have := length_le_of_nodup_of_bounds hnodup hb
  omega

/-- Reaching the end puts the end cell into the closed set (pure case
analysis on `stepOnce`). -/
theorem stepOnce_reachedEnd_endClosed {s s1 : SearchState}
    (hstep : stepOnce s = .reachedEnd s1) : s1.endP ∈ s1.closedSet := by
  unfold stepOnce at hstep
  cases hsel : selectMin s.f s.openSet with
  | none =>
      rw [hsel] at hstep
      exact absurd hstep (by simp)
  | some ci =>
      rcases ci with ⟨current, idx⟩
      rw [hsel] at hstep
      dsimp only at hstep
      by_cases hend : current = s.endP
      · rw [if_pos hend] at hstep
        rw [← StepOut.reachedEnd.inj hstep]
        subst hend
        exact List.mem_append_right _ (List.mem_singleton.mpr rfl)
      · rw [if_neg hend] at hstep
        exact absurd hstep (by simp)

/-- The loop ends with the "no path" signal only with an empty open set and
the end cell never expanded. -/
theorem astarLoop_noPath : ∀ (fuel : Nat) (s fin : SearchState), Inv s →
    astarLoop fuel s = .noPath fin →
    fin.openSet = [] ∧ fin.endP ∉ fin.closedSet ∧ fin.endP = s.endP := by
  intro fuel
  induction fuel with
  | zero =>
      intro s fin _ heq
      exact absurd heq (by simp [astarLoop])
  | succ fuel ih =>
      intro s fin hInv heq
      unfold astarLoop at heq
      cases hstep : stepOnce s with
      | empty =>
          rw [hstep] at heq
          have hfin : s = fin := by
            have := heq
            simp only [AStarResult.noPath.injEq] at this
            exact this
          subst hfin
          exact ⟨(stepOnce_empty_iff s).mp hstep, hInv.endNotClosed, rfl⟩
      | reachedEnd s1 =>
          rw [hstep] at heq
          exact absurd heq (by simp)
      | advance s2 =>
          rw [hstep] at heq
          obtain ⟨hInv2, _, hSF⟩ := stepOnce_advance hInv hstep
          obtain ⟨h1, h2, h3⟩ := ih s2 fin hInv2 heq
          exact ⟨h1, h2, h3.trans hSF.constEnd⟩

/-- A successful search has expanded the end cell. -/
theorem astarLoop_found_endClosed : ∀ (fuel : Nat) (s : SearchState) (pth : List Pos)
    (fin : SearchState), astarLoop fuel s = .found pth fin →
    fin.endP ∈ fin.closedSet := by
  intro fuel
  induction fuel with
  | zero =>
      intro s pth fin heq
      exact absurd heq (by simp [astarLoop])
  | succ fuel ih =>
      intro s pth fin heq
      unfold astarLoop at heq
      cases hstep : stepOnce s with
      | empty =>
          rw [hstep] at heq
          exact absurd heq (by simp)
      | reachedEnd s1 =>
          rw [hstep] at heq
          simp only [AStarResult.found.injEq] at heq
          rw [← heq.2]
          exact stepOnce_reachedEnd_endClosed hstep
      | advance s2 =>
          rw [hstep] at heq
          exact ih s2 pth fin heq

/-- With enough fuel the loop never runs out. -/
theorem astarLoop_total : ∀ (fuel : Nat) (s : SearchState), Inv s →
    s.cols * s.rows + 1 ≤ fuel + s.closedSet.length →
    ∀ fin, astarLoop fuel s ≠ .outOfFuel fin := by
  intro fuel
  induction fuel with
  | zero =>
      intro s hInv hfuel fin
      have := closed_le_size hInv.toInvCore
      omega
  | succ fuel ih =>
      intro s hInv hfuel fin heq
      unfold astarLoop at heq
      cases hstep : stepOnce s with
      | empty =>
          rw [hstep] at heq
          exact absurd heq (by simp)
      | reachedEnd s1 =>
          rw [hstep] at heq
          exact absurd heq (by simp)
      | advance s2 =>
          rw [hstep] at heq
          obtain ⟨hInv2, current, hSF⟩ := stepOnce_advance hInv hstep
          have hlen2 : s2.closedSet.length = s.closedSet.length + 1 := by
            rw [hSF.closedEq]
            simp
          have hcols : s2.cols = s.cols := hSF.constCols
          have hrows : s2.rows = s.rows := hSF.constRows
          exact ih s2 hInv2 (by rw [hcols, hrows]; omega) fin heq

/-- Main obstacle-free run: with adequate fuel the loop succeeds and the
reconstructed path has exactly `heuristic start end` edges; the closed set
never exceeds the grid size. -/
theorem astarLoop_OF : ∀ (fuel : Nat) (s : SearchState), InvOF s →
    s.cols * s.rows + 1 ≤ fuel + s.closedSet.length →
    ∃ pth fin, astarLoop fuel s = .found pth fin ∧
      pth.length = heuristic s.startP s.endP + 1 ∧
      pth.head? = some s.startP ∧ pth.getLast? = some s.endP ∧
      fin.closedSet.length ≤ s.cols * s.rows := by
  intro fuel
  induction fuel with
  | zero =>
      intro s hOF hfuel
      exfalso
      have := closed_le_size hOF.toInv.toInvCore
      omega
  | succ fuel ih =>
      intro s hOF hfuel
      obtain ⟨w, hwopen, hwopt, hwg⟩ := hOF.witness
      have hopen_ne : s.openSet ≠ [] := by
        intro hnil
        rw [hnil] at hwopen
        exact (List.not_mem_nil w) hwopen
      have hfw : s.f w = heuristic s.startP s.endP := by
        have hHw := hOF.cohH w (Or.inl hwopen)
        have hFw := hOF.cohF w (Or.inl hwopen)
        rw [hFw, hHw, hwg]
        exact hwopt
      cases hstep : stepOnce s with
      | empty => exact absurd ((stepOnce_empty_iff s).mp hstep) hopen_ne
      | reachedEnd s1 =>
          obtain ⟨hendopen, hmin, hcore1, hclosedEq, hg1, hpar1, hf1, hh1, hcols1,
            hrows1, hstart1, hend1, hobst1⟩ := stepOnce_reachedEnd hOF.toInv hstep
          have hD : s.g s.endP = heuristic s.startP s.endP := by
            have h1 : s.f s.endP ≤ s.f w := hmin w hwopen
            have hcohF := hOF.cohF s.endP (Or.inl hendopen)
            have hcohH := hOF.cohH s.endP (Or.inl hendopen)
            have hlow := hOF.gLower s.endP (Or.inl hendopen)
            rw [hcohF, hcohH, heuristic_self, hfw] at h1
            omega
          have hmem1 : memberOf s1 s.endP := by
            right
            rw [hclosedEq]
            exact List.mem_append_right _ (List.mem_singleton.mpr rfl)
          have hg1e : s1.g s.endP = heuristic s.startP s.endP := by
            rw [hg1]
            exact hD
          have hDbound : heuristic s.startP s.endP + 1 ≤ s.cols * s.rows :=
            heuristic_lt_size hOF.startValid.1 hOF.startValid.2
              hOF.endValid.1 hOF.endValid.2
          have hfuelw : s1.g s.endP + 1 ≤ s1.cols * s1.rows + 1 := by
            rw [hg1e, hcols1, hrows1]
            omega
          obtain ⟨hlen, hhead, hlast, _, _, _⟩ :=
            chain_spec hcore1 (s1.g s.endP) s.endP hmem1 (le_refl _)
              (s1.cols * s1.rows + 1) hfuelw
          refine ⟨walkParents (s1.cols * s1.rows + 1) (some s1.endP) s1.parent, s1,
            ?_, ?_, ?_, ?_, ?_⟩
          · show astarLoop (fuel + 1) s = _
            unfold astarLoop
            rw [hstep]
          · rw [hend1, hlen, hg1e]
          · rw [hend1, hhead, hstart1]
          · rw [hend1, hlast]
          · have := closed_le_size hcore1
            rw [hcols1, hrows1] at this
            exact this
      | advance s2 =>
          obtain ⟨hOF2, hlen2⟩ := stepOnce_advance_OF hOF hstep
          obtain ⟨_, current, hSF⟩ := stepOnce_advance hOF.toInv hstep
          have hcols : s2.cols = s.cols := hSF.constCols
          have hrows : s2.rows = s.rows := hSF.constRows
          have hstart : s2.startP = s.startP := hSF.constStart
          have hendp : s2.endP = s.endP := hSF.constEnd
          obtain ⟨pth, fin, heq, hplen, hphead, hplast, hbound⟩ :=
            ih s2 hOF2 (by rw [hcols, hrows]; omega)
          refine ⟨pth, fin, ?_, ?_, ?_, ?_, ?_⟩
          · show astarLoop (fuel + 1) s = _
            unfold astarLoop
            rw [hstep]
            exact heq
          · rw [hplen, hstart, hendp]
          · rw [hphead, hstart]
          · rw [hplast, hendp]
          · rw [← hcols, ← hrows]
            exact hbound

/-- The path returned by a successful run: it starts at the start cell, ends
at the end cell, has `g(end) + 1` cells, and consecutive cells are linked by
`parent` edges. -/
theorem astarLoop_found_spec : ∀ (fuel : Nat) (s : SearchState) (pth : List Pos)
    (fin : SearchState), Inv s → astarLoop fuel s = .found pth fin →
    pth.head? = some fin.startP ∧ pth.getLast? = some fin.endP ∧
    pth.length = fin.g fin.endP + 1 ∧
    (∀ i u v, pth[i]? = some u → pth[i + 1]? = some v → fin.parent v = some u) ∧
    fin.startP = s.startP ∧ fin.endP = s.endP := by
  intro fuel
  induction fuel with
  | zero =>
      intro s pth fin _ heq
      exact absurd heq (by simp [astarLoop])
  | succ fuel ih =>
      intro s pth fin hInv heq
      unfold astarLoop at heq
      cases hstep : stepOnce s with
      | empty =>
          rw [hstep] at heq
          exact absurd heq (by simp)
      | reachedEnd s1 =>
          rw [hstep] at heq
          simp only [AStarResult.found.injEq] at heq
          obtain ⟨heqp, heqf⟩ := heq
          obtain ⟨hendopen, _, hcore1, hclosedEq, hg1, _, _, _, hcols1,
            hrows1, hstart1, hend1, _⟩ := stepOnce_reachedEnd hInv hstep
          have hmem1 : memberOf s1 s.endP := by
            right
            rw [hclosedEq]
            exact List.mem_append_right _ (List.mem_singleton.mpr rfl)
          have hgb := g_le_size hcore1 hmem1
          obtain ⟨hlen, hhead, hlast, _, _, hlink⟩ :=
            chain_spec hcore1 (s1.g s.endP) s.endP hmem1 (le_refl _)
              (s1.cols * s1.rows + 1) (by omega)
          subst heqf
          rw [hend1] at heqp
          rw [heqp] at hlen hhead hlast hlink
          refine ⟨hhead, ?_, ?_, hlink, hstart1, hend1⟩
          · rw [hend1]
            exact hlast
          · rw [hend1]
            exact hlen
      | advance s2 =>
          rw [hstep] at heq
          obtain ⟨hInv2, current, hSF⟩ := stepOnce_advance hInv hstep
          obtain ⟨h1, h2, h3, h4, h5, h6⟩ := ih s2 pth fin hInv2 heq
          exact ⟨h1, h2, h3, h4, h5.trans hSF.constStart, h6.trans hSF.constEnd⟩

/-- An `advance` step never changes the grid model or the endpoints (pure
structural fact). -/
theorem stepOnce_advance_consts {s s2 : SearchState} (h : stepOnce s = .advance s2) :
    s2.cols = s.cols ∧ s2.rows = s.rows ∧ s2.startP = s.startP ∧
    s2.endP = s.endP ∧ s2.isObstacle = s.isObstacle := by
  unfold stepOnce at h
  cases hsel : selectMin s.f s.openSet with
  | none =>
      rw [hsel] at h
      exact absurd h (by simp)
  | some ci =>
      rcases ci with ⟨current, idx⟩
      rw [hsel] at h
      dsimp only at h
      by_cases hend : current = s.endP
      · rw [if_pos hend] at h
        exact absurd h (by simp)
      · rw [if_neg hend] at h
        rw [← StepOut.advance.inj h]
        exact ⟨(foldl_relax_const _ _ _).1, (foldl_relax_const _ _ _).2.1,
          (foldl_relax_const _ _ _).2.2.2.1, (foldl_relax_const _ _ _).2.2.2.2.1,
          (foldl_relax_const _ _ _).2.2.1⟩

/-- The grid model and the endpoints are fixed along a run. -/
theorem iterateSearch_consts : ∀ (n : Nat) (s s' : SearchState),
    iterateSearch n s = some s' →
    s'.startP = s.startP ∧ s'.endP = s.endP := by
  intro n
  induction n with
  | zero =>
      intro s s' heq
      have : s = s' := Option.some.inj (by simpa [iterateSearch] using heq)
      rw [← this]
      exact ⟨rfl, rfl⟩
  | succ n ih =>
      intro s s' heq
      unfold iterateSearch at heq
      cases hstep : stepOnce s with
      | empty =>
          rw [hstep] at heq
          exact absurd heq (by simp)
      | reachedEnd s1 =>
          rw [hstep] at heq
          exact absurd heq (by simp)
      | advance s2 =>
          rw [hstep] at heq
          obtain ⟨_, _, h3, h4, _⟩ := stepOnce_advance_consts hstep
          obtain ⟨g3, g4⟩ := ih s2 s' heq
          exact ⟨g3.trans h3, g4.trans h4⟩

/-- The invariant holds at every intermediate state of a run. -/
theorem iterateSearch_inv : ∀ (n : Nat) (s s' : SearchState), Inv s →
    iterateSearch n s = some s' → Inv s' := by
  intro n
  induction n with
  | zero =>
      intro s s' hInv heq
      rw [Option.some.inj (by simpa [iterateSearch] using heq : some s = some s')] at hInv
      exact hInv
  | succ n ih =>
      intro s s' hInv heq
      unfold iterateSearch at heq
      cases hstep : stepOnce s with
      | empty =>
          rw [hstep] at heq
          exact absurd heq (by simp)
      | reachedEnd s1 =>
          rw [hstep] at heq
          exact absurd heq (by simp)
      | advance s2 =>
          rw [hstep] at heq
          obtain ⟨hInv2, _, _⟩ := stepOnce_advance hInv hstep
          exact ih s2 s' hInv2 heq

/-!  ### Interaction-layer invariant preservation  -/

theorem pathClear_clearPath (s : State) : PathClear (clearPath s) :=
  ⟨rfl, rfl, rfl, rfl, rfl, rfl, rfl, rfl, rfl, rfl⟩

theorem clearStartEnd_fields (s : State) :
    (clearStartEnd s).start = none ∧ (clearStartEnd s).endRef = none ∧
    (clearStartEnd s).isPlacingStart = true ∧
    (clearStartEnd s).g = s.g ∧ (clearStartEnd s).h = s.h ∧
    (clearStartEnd s).f = s.f ∧ (clearStartEnd s).parent = s.parent ∧
    (clearStartEnd s).isObstacle = s.isObstacle ∧
    (clearStartEnd s).isPath = s.isPath ∧
    (clearStartEnd s).isExplored = s.isExplored ∧
    (clearStartEnd s).isFrontier = s.isFrontier ∧
    (clearStartEnd s).openSet = s.openSet ∧
    (clearStartEnd s).closedSet = s.closedSet ∧
    (clearStartEnd s).path = s.path ∧
    (clearStartEnd s).isRunning = s.isRunning ∧
    (clearStartEnd s).cols = s.cols ∧ (clearStartEnd s).rows = s.rows := by
  unfold clearStartEnd
  dsimp only
  rcases hs : s.start with _ | a <;> rcases he : s.endRef with _ | b <;>
    exact ⟨rfl, rfl, rfl, rfl, rfl, rfl, rfl, rfl, rfl, rfl, rfl, rfl, rfl, rfl, rfl,
      rfl, rfl⟩

theorem clearStartEnd_noStartFlag {s : State}
    (hfs : ∀ p, s.isStart p = true ↔ s.start = some p) :
    ∀ q, (clearStartEnd s).isStart q = false := by
  intro q
  unfold clearStartEnd
  dsimp only
  rcases hs : s.start with _ | a
  · rcases he : s.endRef with _ | b <;>
    · show s.isStart q = false
      cases hq : s.isStart q
      · rfl
      · have h1 := (hfs q).mp hq
        rw [hs] at h1
        exact absurd h1 (by simp)
  · rcases he : s.endRef with _ | b <;>
    · show upd s.isStart a false q = false
      by_cases hqa : q = a
      · subst hqa
        rw [upd_self]
      · rw [upd_ne _ _ hqa]
        cases hq : s.isStart q
        · rfl
        · have h1 := (hfs q).mp hq
          rw [hs] at h1
          exact absurd (Option.some.inj h1).symm hqa

theorem clearStartEnd_noEndFlag {s : State}
    (hfe : ∀ p, s.isEnd p = true ↔ s.endRef = some p) :
    ∀ q, (clearStartEnd s).isEnd q = false := by
  intro q
  unfold clearStartEnd
  dsimp only
  rcases hs : s.start with _ | a <;>
  · rcases he : s.endRef with _ | b
    · show s.isEnd q = false
      cases hq : s.isEnd q
      · rfl
      · have h1 := (hfe q).mp hq
        rw [he] at h1
        exact absurd h1 (by simp)
    · show upd s.isEnd b false q = false
      by_cases hqb : q = b
      · subst hqb
        rw [upd_self]
      · rw [upd_ne _ _ hqb]
        cases hq : s.isEnd q
        · rfl
        · have h1 := (hfe q).mp hq
          rw [he] at h1
          exact absurd (Option.some.inj h1).symm hqb

theorem uiinv_clearPath {s : State} (hUI : UIInv s) : UIInv (clearPath s) := by
  refine ⟨hUI.flagsStart, hUI.flagsEnd, hUI.refsNe, ?_, hUI.notPlacing, rfl, hUI.startBounds⟩
  intro hps
  obtain ⟨h1, h2, _⟩ := hUI.placing hps
  exact ⟨h1, h2, pathClear_clearPath s⟩

theorem uiinv_clearAll {s : State} (hUI : UIInv s) : UIInv (clearAll s) := by
  have hCSE := clearStartEnd_fields (clearPath s)
  have hNoS := clearStartEnd_noStartFlag (s := clearPath s) hUI.flagsStart
  have hNoE := clearStartEnd_noEndFlag (s := clearPath s) hUI.flagsEnd
  have hstart : (clearAll s).start = none := hCSE.1
  have hendr : (clearAll s).endRef = none := hCSE.2.1
  refine ⟨?_, ?_, ?_, ?_, ?_, ?_, ?_⟩
  · intro p
    rw [hstart]
    have : (clearAll s).isStart p = false := hNoS p
    rw [this]
    simp
  · intro p
    rw [hendr]
    have : (clearAll s).isEnd p = false := hNoE p
    rw [this]
    simp
  · intro p hcon
    rw [hstart] at hcon
    exact absurd hcon.1 (by simp)
  · intro _
    refine ⟨hstart, hendr, ?_⟩
    have hPC := pathClear_clearPath s
    obtain ⟨g1, g2, g3, g4, g5, g6, g7, g8, g9, g10⟩ := hPC
    exact ⟨hCSE.2.2.2.1.trans g1, hCSE.2.2.2.2.1.trans g2, hCSE.2.2.2.2.2.1.trans g3,
      hCSE.2.2.2.2.2.2.1.trans g4, hCSE.2.2.2.2.2.2.2.2.1.trans g5,
      hCSE.2.2.2.2.2.2.2.2.2.1.trans g6, hCSE.2.2.2.2.2.2.2.2.2.2.1.trans g7,
      hCSE.2.2.2.2.2.2.2.2.2.2.2.1.trans g8, hCSE.2.2.2.2.2.2.2.2.2.2.2.2.1.trans g9,
      hCSE.2.2.2.2.2.2.2.2.2.2.2.2.2.1.trans g10⟩
  · intro hps
    have htrue : (clearAll s).isPlacingStart = true := hCSE.2.2.1
    rw [htrue] at hps
    exact absurd hps (by simp)
  · show (clearAll s).isRunning = false
    have h1 : (clearAll s).isRunning = (clearPath s).isRunning :=
      hCSE.2.2.2.2.2.2.2.2.2.2.2.2.2.2.1
    rw [h1]
    rfl
  · intro p hp
    rw [hstart] at hp
    exact absurd hp (by simp)

theorem uiinv_mouseMove (p : Pos) {s : State} (hUI : UIInv s) :
    UIInv (handleMouseMove p s) := by
  unfold handleMouseMove
  split_ifs <;>
    exact ⟨hUI.flagsStart, hUI.flagsEnd, hUI.refsNe, hUI.placing, hUI.notPlacing,
      hUI.running, hUI.startBounds⟩

theorem uiinv_mouseUp {s : State} (hUI : UIInv s) : UIInv (handleMouseUp s) :=
  ⟨hUI.flagsStart, hUI.flagsEnd, hUI.refsNe, hUI.placing, hUI.notPlacing,
    hUI.running, hUI.startBounds⟩

theorem uiinv_toggleAnimation {s : State} (hUI : UIInv s) : UIInv (toggleAnimation s) :=
  ⟨hUI.flagsStart, hUI.flagsEnd, hUI.refsNe, hUI.placing, hUI.notPlacing,
    hUI.running, hUI.startBounds⟩

theorem uiinv_random (coin : Pos → Bool) {s : State} (hUI : UIInv s) :
    UIInv (generateRandomObstacles coin s) := by
  refine ⟨hUI.flagsStart, hUI.flagsEnd, hUI.refsNe, ?_, hUI.notPlacing, rfl,
    hUI.startBounds⟩
  intro hps
  obtain ⟨h1, h2, _⟩ := hUI.placing hps
  exact ⟨h1, h2, pathClear_clearPath s⟩

theorem uiinv_mouseDown (p : Pos) {s : State} (hUI : UIInv s) :
    UIInv (handleMouseDown p s) := by
  unfold handleMouseDown
  rw [hUI.running]
  simp only [Bool.false_eq_true, if_false]
  by_cases hb : p.1 < s.cols ∧ p.2 < s.rows
  · rw [if_pos hb]
    by_cases hps : s.isPlacingStart = true
    · rw [if_pos hps]
      have hCSE := clearStartEnd_fields s
      have hNoS := clearStartEnd_noStartFlag hUI.flagsStart
      have hNoE := clearStartEnd_noEndFlag hUI.flagsEnd
      refine ⟨?_, ?_, ?_, ?_, ?_, ?_, ?_⟩
      · intro q
        show upd (clearStartEnd s).isStart p true q = true ↔ some p = some q
        by_cases hqp : q = p
        · subst hqp
          rw [upd_self]
          simp
        · rw [upd_ne _ _ hqp, hNoS q]
          constructor
          · intro hcon
            exact absurd hcon (by simp)
          · intro hcon
            exact absurd (Option.some.inj hcon).symm hqp
      · intro q
        show (clearStartEnd s).isEnd q = true ↔ (clearStartEnd s).endRef = some q
        rw [hNoE q, hCSE.2.1]
        simp
      · intro q hcon
        have h2 : (clearStartEnd s).endRef = some q := hcon.2
        rw [hCSE.2.1] at h2
        exact absurd h2 (by simp)
      · intro hcon
        exact absurd hcon (by simp)
      · intro _
        show some p ≠ none
        simp
      · show (clearStartEnd s).isRunning = false
        rw [hCSE.2.2.2.2.2.2.2.2.2.2.2.2.2.2.1]
        exact hUI.running
      · intro q hq
        have hpq : p = q := Option.some.inj hq
        subst hpq
        show p.1 < (clearStartEnd s).cols ∧ p.2 < (clearStartEnd s).rows
        rw [hCSE.2.2.2.2.2.2.2.2.2.2.2.2.2.2.2.1, hCSE.2.2.2.2.2.2.2.2.2.2.2.2.2.2.2.2]
        exact hb
    · rw [if_neg hps]
      have hpsf : s.isPlacingStart = false := by
        revert hps
        cases s.isPlacingStart <;> simp
      by_cases hse : s.start = none ∨ s.endRef = none
      · rw [if_pos hse]
        by_cases hsp : s.isStart p = false
        · rw [if_pos hsp]
          have hsome : ∃ a, s.start = some a := by
            rcases hstart : s.start with _ | a
            · exact absurd hstart (hUI.notPlacing hpsf)
            · exact ⟨a, rfl⟩
          obtain ⟨a, ha⟩ := hsome
          have hen : s.endRef = none := by
            rcases hse with hse | hse
            · rw [ha] at hse
              exact absurd hse (by simp)
            · exact hse
          have hEndFlagsFalse : ∀ q, s.isEnd q = false := by
            intro q
            cases hq : s.isEnd q
            · rfl
            · have := (hUI.flagsEnd q).mp hq
              rw [hen] at this
              exact absurd this (by simp)
          refine ⟨hUI.flagsStart, ?_, ?_, ?_, ?_, rfl, hUI.startBounds⟩
          · intro q
            show upd s.isEnd p true q = true ↔ some p = some q
            by_cases hqp : q = p
            · subst hqp
              rw [upd_self]
              simp
            · rw [upd_ne _ _ hqp, hEndFlagsFalse q]
              constructor
              · intro hcon
                exact absurd hcon (by simp)
              · intro hcon
                exact absurd (Option.some.inj hcon).symm hqp
          · intro q hcon
            have h1 : s.start = some q := hcon.1
            have h2 : p = q := Option.some.inj hcon.2
            subst h2
            have : s.isStart p = true := (hUI.flagsStart p).mpr h1
            rw [hsp] at this
            exact absurd this (by simp)
          · intro hcon
            rw [hpsf] at hcon
            exact absurd hcon (by simp)
          · intro _
            show s.start ≠ none
            rw [ha]
            simp
        · rw [if_neg hsp]
          exact hUI
      · rw [if_neg hse]
        by_cases hob : s.isStart p = false ∧ s.isEnd p = false
        · rw [if_pos hob]
          exact ⟨hUI.flagsStart, hUI.flagsEnd, hUI.refsNe, hUI.placing, hUI.notPlacing,
            rfl, hUI.startBounds⟩
        · rw [if_neg hob]
          exact hUI
  · rw [if_neg hb]
    exact hUI

theorem uiinv_startBtn {s : State} (hUI : UIInv s) : UIInv (startPathfinding s).2 := by
  unfold startPathfinding
  rcases hstart : s.start with _ | a <;> rcases hend : s.endRef with _ | b
  · exact hUI
  · exact hUI
  · exact hUI
  · dsimp only
    cases hrun : runAStar (initSearch (clearPath s).cols (clearPath s).rows
      (clearPath s).isObstacle a b) <;>
    · refine ⟨hUI.flagsStart, hUI.flagsEnd, hUI.refsNe, ?_, ?_, rfl, hUI.startBounds⟩
      · intro hcon
        obtain ⟨h1, _, _⟩ := hUI.placing hcon
        rw [hstart] at h1
        exact absurd h1 (by simp)
      · intro _
        show s.start ≠ none
        rw [hstart]
        simp

theorem uiinv_init (cols rows : Nat) : UIInv (initState cols rows) := by
  refine ⟨?_, ?_, ?_, ?_, ?_, rfl, ?_⟩
  · intro p
    simp [initState]
  · intro p
    simp [initState]
  · intro p hcon
    have : (initState cols rows).start = some p := hcon.1
    simp [initState] at this
  · intro _
    exact ⟨rfl, rfl, rfl, rfl, rfl, rfl, rfl, rfl, rfl, rfl, rfl, rfl⟩
  · intro hcon
    simp [initState] at hcon
  · intro p hp
    simp [initState] at hp

theorem uiinv_apply (a : Action) {s : State} (hUI : UIInv s) :
    UIInv (applyAction a s) := by
  cases a with
  | mouseDown p => exact uiinv_mouseDown p hUI
  | mouseMove p => exact uiinv_mouseMove p hUI
  | mouseUp => exact uiinv_mouseUp hUI
  | startBtn => exact uiinv_startBtn hUI
  | clearBtn => exact uiinv_clearPath hUI
  | randomBtn coin => exact uiinv_random coin hUI
  | clearAllBtn => exact uiinv_clearAll hUI
  | animateBtn => exact uiinv_toggleAnimation hUI

theorem uiinv_foldl : ∀ (acts : List Action) (s : State), UIInv s →
    UIInv (acts.foldl (fun s a => applyAction a s) s) := by
  intro acts
  induction acts with
  | nil => intro s hUI; exact hUI
  | cons a t ih =>
      intro s hUI
      exact ih (applyAction a s) (uiinv_apply a hUI)

/-- Every state reachable by user actions satisfies the interaction
invariant. -/
theorem uiinv_runActions (cols rows : Nat) (acts : List Action) :
    UIInv (runActions cols rows acts) :=
  uiinv_foldl acts (initState cols rows) (uiinv_init cols rows)

theorem handleMouseDown_dims (p : Pos) (s : State) :
    (handleMouseDown p s).cols = s.cols ∧ (handleMouseDown p s).rows = s.rows := by
  have hCSE := clearStartEnd_fields s
  unfold handleMouseDown
  split_ifs <;>
    first
      | exact ⟨rfl, rfl⟩
      | exact ⟨hCSE.2.2.2.2.2.2.2.2.2.2.2.2.2.2.2.1,
          hCSE.2.2.2.2.2.2.2.2.2.2.2.2.2.2.2.2⟩

theorem startPathfinding_dims (s : State) :
    (startPathfinding s).2.cols = s.cols ∧ (startPathfinding s).2.rows = s.rows := by
  unfold startPathfinding
  rcases hstart : s.start with _ | a <;> rcases hend : s.endRef with _ | b
  · exact ⟨rfl, rfl⟩
  · exact ⟨rfl, rfl⟩
  · exact ⟨rfl, rfl⟩
  · dsimp only
    cases hrun : runAStar (initSearch (clearPath s).cols (clearPath s).rows
      (clearPath s).isObstacle a b) <;> exact ⟨rfl, rfl⟩

theorem applyAction_dims (a : Action) (s : State) :
    (applyAction a s).cols = s.cols ∧ (applyAction a s).rows = s.rows := by
  have hCSE := clearStartEnd_fields (clearPath s)
  cases a with
  | mouseDown p => exact handleMouseDown_dims p s
  | mouseMove p =>
      unfold applyAction handleMouseMove
      dsimp only
      split_ifs <;> exact ⟨rfl, rfl⟩
  | mouseUp => exact ⟨rfl, rfl⟩
  | startBtn => exact startPathfinding_dims s
  | clearBtn => exact ⟨rfl, rfl⟩
  | randomBtn coin => exact ⟨rfl, rfl⟩
  | clearAllBtn =>
      exact ⟨hCSE.2.2.2.2.2.2.2.2.2.2.2.2.2.2.2.1,
        hCSE.2.2.2.2.2.2.2.2.2.2.2.2.2.2.2.2⟩
  | animateBtn => exact ⟨rfl, rfl⟩

theorem foldl_dims : ∀ (acts : List Action) (s : State),
    (acts.foldl (fun s a => applyAction a s) s).cols = s.cols ∧
    (acts.foldl (fun s a => applyAction a s) s).rows = s.rows := by
  intro acts
  induction acts with
  | nil => intro s; exact ⟨rfl, rfl⟩
  | cons a t ih =>
      intro s
      obtain ⟨h1, h2⟩ := ih (applyAction a s)
      obtain ⟨g1, g2⟩ := applyAction_dims a s
      exact ⟨h1.trans g1, h2.trans g2⟩

theorem runActions_dims (cols rows : Nat) (acts : List Action) :
    (runActions cols rows acts).cols = cols ∧ (runActions cols rows acts).rows = rows :=
  foldl_dims acts (initState cols rows)

/-!  ## The claims  -/

/-- Claim C1: on every grid with no obstacle cells and a set start and end,
`startPathfinding` succeeds, the returned path's edge count (`length - 1`)
equals the Manhattan distance between start and end, and the number of
explored cells never exceeds `cols * rows`.  At 10×10 with start `(0,0)` and
end `(9,9)` this gives path length 18 and at most 100 explored cells (see the
witness). -/
theorem C1_obstacle_free_manhattan {s : State} {a b : Pos}
    (hstart : s.start = some a) (hend : s.endRef = some b)
    (ha1 : a.1 < s.cols) (ha2 : a.2 < s.rows) (hb1 : b.1 < s.cols) (hb2 : b.2 < s.rows)
    (hfree : s.isObstacle = fun _ => false) :
    (startPathfinding s).1 = StartOutcome.pathFound ∧
    (startPathfinding s).2.path.length = heuristic a b + 1 ∧
    (startPathfinding s).2.closedSet.length ≤ s.cols * s.rows := by
  have hfree' : ∀ p, (clearPath s).isObstacle p = false := by
    intro p
    show s.isObstacle p = false
    rw [hfree]
  have hOF : InvOF (initSearch (clearPath s).cols (clearPath s).rows
      (clearPath s).isObstacle a b) :=
    initSearch_invOF ha1 ha2 hb1 hb2 hfree'
  obtain ⟨pth, fin, heq, hplen, _, _, hbound⟩ :=
    astarLoop_OF ((clearPath s).cols * (clearPath s).rows + 1)
      (initSearch (clearPath s).cols (clearPath s).rows (clearPath s).isObstacle a b)
      hOF (by simp [initSearch])
  have hrun : runAStar (initSearch (clearPath s).cols (clearPath s).rows
      (clearPath s).isObstacle a b) = .found pth fin := heq
  unfold startPathfinding
  rw [hstart, hend]
  dsimp only
  rw [hrun]
  exact ⟨rfl, hplen, hbound⟩

/-- Witness for C1: the concrete 10×10 scenario — path of 19 cells
(18 edges) and at most 100 explored cells. -/
theorem C1_witness :
    demoC1.start = some (0, 0) ∧ demoC1.endRef = some (9, 9) ∧
    demoC1.isObstacle = (fun _ => false) ∧
    (startPathfinding demoC1).1 = StartOutcome.pathFound ∧
    (startPathfinding demoC1).2.path.length = 19 ∧
    (startPathfinding demoC1).2.closedSet.length ≤ 100 := by
  have h := C1_obstacle_free_manhattan (s := demoC1) (a := (0, 0)) (b := (9, 9))
    rfl rfl (by decide) (by decide) (by decide) (by decide) rfl
  refine ⟨rfl, rfl, rfl, h.1, ?_, h.2.2⟩
  rw [h.2.1]
  decide

/-- Claim C2: the cell expanded at each iteration is the open-set member with
minimum `f`, chosen by the strictly-less linear scan, so among equal-`f`
members the earliest-positioned one is chosen (every earlier slot has strictly
larger `f`); that cell is exactly the one marked explored and appended to the
closed (explored-order) list. -/
theorem C2_min_f_selection {s : SearchState} {current : Pos} {idx : Nat}
    (hsel : selectMin s.f s.openSet = some (current, idx)) :
    s.openSet[idx]? = some current ∧
    (∀ q ∈ s.openSet, s.f current ≤ s.f q) ∧
    (∀ j q, j < idx → s.openSet[j]? = some q → s.f current < s.f q) ∧
    (match stepOnce s with
     | .empty => False
     | .reachedEnd s1 => s1.isExplored current = true ∧
         s1.closedSet = s.closedSet ++ [current]
     | .advance s2 => s2.isExplored current = true ∧
         s2.closedSet = s.closedSet ++ [current]) := by
  have hopen_ne : s.openSet ≠ [] := by
    intro hnil
    rw [(selectMin_eq_none_iff s.f s.openSet).mpr hnil] at hsel
    exact absurd hsel (by simp)
  obtain ⟨c, i, hceq, hget, hmin, hstrict⟩ := selectMin_spec s.f s.openSet hopen_ne
  rw [hceq] at hsel
  have hcc : c = current ∧ i = idx := by
    have := Option.some.inj hsel
    exact ⟨congrArg Prod.fst this, congrArg Prod.snd this⟩
  obtain ⟨rfl, rfl⟩ := hcc
  refine ⟨hget, hmin, hstrict, ?_⟩
  unfold stepOnce
  rw [hceq]
  dsimp only
  by_cases hend : c = s.endP
  · rw [if_pos hend]
    exact ⟨upd_self _ _ _, rfl⟩
  · rw [if_neg hend]
    have hconst := foldl_relax_const c
      (getNeighbors s.cols s.rows s.isObstacle c)
      { s with openSet := s.openSet.eraseIdx i,
               closedSet := s.closedSet ++ [c],
               isExplored := upd s.isExplored c true }
    refine ⟨?_, ?_⟩
    · rw [hconst.2.2.2.2.2.2]
      exact upd_self s.isExplored c true
    · exact hconst.2.2.2.2.2.1

/-- Witness for C2: in a concrete open set `[(2,0), (0,0), (1,0)]` with
`f p = p.1 + 3`, the scan selects `(0,0)` at index 1. -/
theorem C2_witness :
    selectMin demoC2.f demoC2.openSet = some ((0, 0), 1) ∧
    (demoC2.openSet[1]? = some (0, 0) ∧
     (∀ q ∈ demoC2.openSet, demoC2.f (0, 0) ≤ demoC2.f q) ∧
     (∀ j q, j < 1 → demoC2.openSet[j]? = some q → demoC2.f (0, 0) < demoC2.f q) ∧
     (match stepOnce demoC2 with
      | .empty => False
      | .reachedEnd s1 => s1.isExplored (0, 0) = true ∧
          s1.closedSet = demoC2.closedSet ++ [(0, 0)]
      | .advance s2 => s2.isExplored (0, 0) = true ∧
          s2.closedSet = demoC2.closedSet ++ [(0, 0)])) :=
  ⟨by decide, C2_min_f_selection (by decide)⟩

/-- Claim C3 (spec-modelled; the Moving-Obstacle Simulator is not under
`src/`): the neighbors a dynamic-variant expansion step considers are the
Grid Model neighbors additionally filtered by `occupies`, so every cell whose
coordinates equal some obstacle's floored position is excluded, and every
considered neighbor is a Grid Model neighbor. -/
theorem C3_occupies_filter {obs : List MovingObstacle} {cols rows : Nat}
    {obst : Pos → Bool} {n p : Pos}
    (hocc : occupies obs p.1 p.2 = true) :
    p ∉ getNeighborsDyn obs cols rows obst n ∧
    (∀ q ∈ getNeighborsDyn obs cols rows obst n, q ∈ getNeighbors cols rows obst n) := by
  constructor
  · intro hp
    rw [getNeighborsDyn, List.mem_filter] at hp
    rw [hocc] at hp
    exact absurd hp.2 (by simp)
  · intro q hq
    rw [getNeighborsDyn, List.mem_filter] at hq
    exact hq.1

/-- Witness for C3: an obstacle at continuous position `(3/2, 5/2)` occupies
cell `(1,2)`, which is therefore never among the considered neighbors. -/
theorem C3_witness :
    occupies demoObstacles 1 2 = true ∧
    ((1, 2) ∉ getNeighborsDyn demoObstacles 4 4 (fun _ => false) (1, 1) ∧
     (∀ q ∈ getNeighborsDyn demoObstacles 4 4 (fun _ => false) (1, 1),
        q ∈ getNeighbors 4 4 (fun _ => false) (1, 1))) :=
  ⟨by decide, C3_occupies_filter (by decide)⟩

/-- Claim C4: designating the same cell as both start and end is refused —
clicking the start cell in end-placing mode changes nothing, and a subsequent
search attempt is rejected with the missing-endpoints condition without
running (the state is untouched, so nothing is explored and no path is
produced); moreover no reachable state ever has `start` and `end` referencing
the same cell. -/
theorem C4_identical_endpoints_rejected {s : State} {c : Pos}
    (hrun : s.isRunning = false) (hps : s.isPlacingStart = false)
    (hstart : s.start = some c) (hflag : s.isStart c = true) (hend : s.endRef = none)
    (hb1 : c.1 < s.cols) (hb2 : c.2 < s.rows) :
    handleMouseDown c s = s ∧
    startPathfinding s = (StartOutcome.missingEndpoints, s) ∧
    (∀ cols rows acts p, ¬((runActions cols rows acts).start = some p ∧
        (runActions cols rows acts).endRef = some p)) := by
  refine ⟨?_, ?_, ?_⟩
  · unfold handleMouseDown
    rw [hrun]
    simp only [Bool.false_eq_true, if_false]
    rw [if_pos ⟨hb1, hb2⟩, if_neg (by rw [hps]; simp),
      if_pos (Or.inr hend), hflag]
    rw [if_neg (by simp)]
  · unfold startPathfinding
    rw [hstart, hend]
  · intro cols rows acts p
    exact (uiinv_runActions cols rows acts).refsNe p

/-- Witness for C4: a 3×3 visualizer with only the start at `(0,0)`; clicking
`(0,0)` again is a no-op and the search attempt reports missing endpoints. -/
theorem C4_witness :
    demoC4.start = some (0, 0) ∧ demoC4.endRef = none ∧
    (handleMouseDown (0, 0) demoC4 = demoC4 ∧
     startPathfinding demoC4 = (StartOutcome.missingEndpoints, demoC4) ∧
     (∀ cols rows acts p, ¬((runActions cols rows acts).start = some p ∧
        (runActions cols rows acts).endRef = some p))) :=
  ⟨rfl, rfl, C4_identical_endpoints_rejected rfl rfl rfl (by decide) rfl
    (by decide) (by decide)⟩

/-- Claim C5: in every state the visualizer can reach that is not running and
accepts a place-start click, the click clears any prior start, makes the
clicked cell the unique start, and leaves the path state clear — all cost
fields zero, all parents null, and all path/explored/frontier flags unset —
while the obstacle flags are unchanged. -/
theorem C5_place_start_effect (cols rows : Nat) (acts : List Action) (p : Pos)
    (hb1 : p.1 < cols) (hb2 : p.2 < rows)
    (hrun : (runActions cols rows acts).isRunning = false)
    (hps : (runActions cols rows acts).isPlacingStart = true) :
    (handleMouseDown p (runActions cols rows acts)).start = some p ∧
    (∀ q, (handleMouseDown p (runActions cols rows acts)).isStart q = true ↔ q = p) ∧
    (handleMouseDown p (runActions cols rows acts)).endRef = none ∧
    (∀ q, (handleMouseDown p (runActions cols rows acts)).isEnd q = false) ∧
    (handleMouseDown p (runActions cols rows acts)).g = (fun _ => 0) ∧
    (handleMouseDown p (runActions cols rows acts)).h = (fun _ => 0) ∧
    (handleMouseDown p (runActions cols rows acts)).f = (fun _ => 0) ∧
    (handleMouseDown p (runActions cols rows acts)).parent = (fun _ => none) ∧
    (handleMouseDown p (runActions cols rows acts)).isPath = (fun _ => false) ∧
    (handleMouseDown p (runActions cols rows acts)).isExplored = (fun _ => false) ∧
    (handleMouseDown p (runActions cols rows acts)).isFrontier = (fun _ => false) ∧
    (handleMouseDown p (runActions cols rows acts)).openSet = [] ∧
    (handleMouseDown p (runActions cols rows acts)).closedSet = [] ∧
    (handleMouseDown p (runActions cols rows acts)).path = [] ∧
    (handleMouseDown p (runActions cols rows acts)).isObstacle =
      (runActions cols rows acts).isObstacle := by
  set s := runActions cols rows acts with hs
  have hUI : UIInv s := uiinv_runActions cols rows acts
  obtain ⟨hdims1, hdims2⟩ := runActions_dims cols rows acts
  obtain ⟨hstart0, hend0, hPC⟩ := hUI.placing hps
  obtain ⟨g1, g2, g3, g4, g5, g6, g7, g8, g9, g10⟩ := hPC
  have hCSE := clearStartEnd_fields s
  have hNoS := clearStartEnd_noStartFlag hUI.flagsStart
  have hNoE := clearStartEnd_noEndFlag hUI.flagsEnd
  have hred : handleMouseDown p s =
      { clearStartEnd s with
          isStart := upd (clearStartEnd s).isStart p true,
          start := some p, isPlacingStart := false } := by
    have hbnd : p.1 < s.cols ∧ p.2 < s.rows := by
      rw [hs, hdims1, hdims2]
      exact ⟨hb1, hb2⟩
    unfold handleMouseDown
    rw [hrun]
    simp only [Bool.false_eq_true, if_false]
    rw [if_pos hbnd, if_pos hps]
  rw [hred]
  refine ⟨rfl, ?_, hCSE.2.1, hNoE, hCSE.2.2.2.1.trans g1, hCSE.2.2.2.2.1.trans g2,
    hCSE.2.2.2.2.2.1.trans g3, hCSE.2.2.2.2.2.2.1.trans g4,
    hCSE.2.2.2.2.2.2.2.2.1.trans g5, hCSE.2.2.2.2.2.2.2.2.2.1.trans g6,
    hCSE.2.2.2.2.2.2.2.2.2.2.1.trans g7, hCSE.2.2.2.2.2.2.2.2.2.2.2.1.trans g8,
    hCSE.2.2.2.2.2.2.2.2.2.2.2.2.1.trans g9, hCSE.2.2.2.2.2.2.2.2.2.2.2.2.2.1.trans g10,
    hCSE.2.2.2.2.2.2.2.1⟩
  intro q
  show upd (clearStartEnd s).isStart p true q = true ↔ q = p
  by_cases hqp : q = p
  · subst hqp
    rw [upd_self]
    simp
  · rw [upd_ne _ _ hqp, hNoS q]
    simp [hqp]

/-- Witness for C5: clicking `(1,1)` on a fresh 3×3 visualizer. -/
theorem C5_witness :
    ((1 : Nat) < 3 ∧ (1 : Nat) < 3 ∧
      (runActions 3 3 []).isRunning = false ∧
      (runActions 3 3 []).isPlacingStart = true) ∧
    (handleMouseDown (1, 1) (runActions 3 3 [])).start = some (1, 1) ∧
    (∀ q, (handleMouseDown (1, 1) (runActions 3 3 [])).isStart q = true ↔ q = (1, 1)) ∧
    (handleMouseDown (1, 1) (runActions 3 3 [])).endRef = none ∧
    (∀ q, (handleMouseDown (1, 1) (runActions 3 3 [])).isEnd q = false) ∧
    (handleMouseDown (1, 1) (runActions 3 3 [])).isObstacle =
      (runActions 3 3 []).isObstacle := by
  have h := C5_place_start_effect 3 3 [] (1, 1) (by decide) (by decide) rfl rfl
  exact ⟨⟨by decide, by decide, rfl, rfl⟩, h.1, h.2.1, h.2.2.1, h.2.2.2.1,
    h.2.2.2.2.2.2.2.2.2.2.2.2.2.2⟩

/-- Claim C6: the search reports "no path" exactly when the loop exits with
an empty open set without ever expanding the end cell — a no-path exit has an
empty open set and the end unexpanded, a success has the end expanded, and
with its fuel the loop never runs out; in particular whenever every in-bounds
cardinal neighbor of the start is an obstacle and the start is not the end,
the run ends in "no path". -/
theorem C6_noPath_exhaustion (cols rows : Nat) (obst : Pos → Bool) (a b : Pos)
    (ha1 : a.1 < cols) (ha2 : a.2 < rows) (hb1 : b.1 < cols) (hb2 : b.2 < rows) :
    (∀ fin, runAStar (initSearch cols rows obst a b) = .noPath fin →
      fin.openSet = [] ∧ b ∉ fin.closedSet) ∧
    (∀ pth fin, runAStar (initSearch cols rows obst a b) = .found pth fin →
      fin.endP ∈ fin.closedSet) ∧
    (∀ fin, runAStar (initSearch cols rows obst a b) ≠ .outOfFuel fin) ∧
    (a ≠ b →
      (∀ x y, x < cols → y < rows → heuristic a (x, y) = 1 → obst (x, y) = true) →
      ∃ fin, runAStar (initSearch cols rows obst a b) = .noPath fin) := by
  have hInv : Inv (initSearch cols rows obst a b) := initSearch_inv ha1 ha2 hb1 hb2
  refine ⟨?_, ?_, ?_, ?_⟩
  · intro fin heq
    obtain ⟨h1, h2, h3⟩ := astarLoop_noPath _ _ _ hInv heq
    rw [h3] at h2
    exact ⟨h1, h2⟩
  · intro pth fin heq
    exact astarLoop_found_endClosed _ _ _ _ heq
  · intro fin
    exact astarLoop_total _ _ hInv (by simp [initSearch]) fin
  · intro hneq hsur
    have hnb : getNeighbors cols rows obst a = [] := by
      rw [List.eq_nil_iff_forall_not_mem]
      intro q hq
      obtain ⟨hH, h1, h2, h3⟩ := mem_getNeighbors.mp hq
      rcases q with ⟨qx, qy⟩
      have := hsur qx qy h1 h2 hH
      rw [this] at h3
      exact absurd h3 (by simp)
    obtain ⟨m, hm⟩ : ∃ m, cols * rows = m + 1 :=
      ⟨cols * rows - 1, by
        have : 0 < cols * rows := Nat.mul_pos (by omega) (by omega)
        omega⟩
    have hstep1 : stepOnce (initSearch cols rows obst a b) =
        .advance { initSearch cols rows obst a b with
            openSet := [], closedSet := [a],
            isExplored := upd (fun _ => false) a true } := by
      have hsel : selectMin (initSearch cols rows obst a b).f
          (initSearch cols rows obst a b).openSet = some (a, 0) := rfl
      unfold stepOnce
      rw [hsel]
      dsimp only
      rw [if_neg (show a ≠ (initSearch cols rows obst a b).endP from hneq)]
      rw [show getNeighbors (initSearch cols rows obst a b).cols
          (initSearch cols rows obst a b).rows
          (initSearch cols rows obst a b).isObstacle a = [] from hnb]
      rfl
    refine ⟨{ initSearch cols rows obst a b with
        openSet := [], closedSet := [a],
        isExplored := upd (fun _ => false) a true }, ?_⟩
    show astarLoop ((initSearch cols rows obst a b).cols *
      (initSearch cols rows obst a b).rows + 1) _ = _
    have hdim : (initSearch cols rows obst a b).cols *
        (initSearch cols rows obst a b).rows + 1 = m + 2 := by
      show cols * rows + 1 = m + 2
      omega
    rw [hdim]
    show astarLoop (m + 1 + 1) _ = _
    unfold astarLoop
    rw [hstep1]
    have hempty : stepOnce { initSearch cols rows obst a b with
        openSet := [], closedSet := [a],
        isExplored := upd (fun _ => false) a true } = .empty :=
      (stepOnce_empty_iff _).mpr rfl
    unfold astarLoop
    rw [hempty]

/-- Witness for C6: a 3×3 grid whose center start is walled in by its four
neighbors; the run reports "no path". -/
theorem C6_witness :
    ((0 : Nat) < 3 ∧ ((1, 1) : Pos) ≠ (2, 2) ∧
      (∀ x y, x < 3 → y < 3 → heuristic (1, 1) (x, y) = 1 →
        (fun p : Pos => decide (heuristic (1, 1) p = 1)) (x, y) = true)) ∧
    (∃ fin, runAStar (initSearch 3 3 (fun p => decide (heuristic (1, 1) p = 1))
      (1, 1) (2, 2)) = .noPath fin) := by
  have h := C6_noPath_exhaustion 3 3 (fun p => decide (heuristic (1, 1) p = 1))
    (1, 1) (2, 2) (by decide) (by decide) (by decide) (by decide)
  refine ⟨⟨by decide, by decide, ?_⟩, ?_⟩
  · intro x y _ _ hH
    exact decide_eq_true hH
  · refine h.2.2.2 (by decide) ?_
    intro x y _ _ hH
    exact decide_eq_true hH

/-- Counterexample to claim C7 as stated: neither endpoint placement checks the
obstacle flag, so after filling a 2×1 grid with random obstacles and then
placing the start on (0,0) and the end on (1,0), both endpoint cells are
simultaneously obstacles. -/
theorem C7_counterexample :
    (runActions 2 1 [Action.randomBtn (fun _ => true), Action.mouseDown (0, 0),
        Action.mouseDown (1, 0)]).isStart (0, 0) = true ∧
    (runActions 2 1 [Action.randomBtn (fun _ => true), Action.mouseDown (0, 0),
        Action.mouseDown (1, 0)]).isObstacle (0, 0) = true ∧
    (runActions 2 1 [Action.randomBtn (fun _ => true), Action.mouseDown (0, 0),
        Action.mouseDown (1, 0)]).isEnd (1, 0) = true ∧
    (runActions 2 1 [Action.randomBtn (fun _ => true), Action.mouseDown (0, 0),
        Action.mouseDown (1, 0)]).isObstacle (1, 0) = true := by
  decide

/-- Claim C7, amended: after every sequence of user actions, at most one cell
has `isStart = true`, at most one cell has `isEnd = true`, and no cell is
simultaneously start and end; the claimed disjointness of endpoint and
obstacle flags does not hold (see the counterexample). -/
theorem C7_amended_endpoint_uniqueness (cols rows : Nat) (acts : List Action) :
    (∀ p q, (runActions cols rows acts).isStart p = true →
            (runActions cols rows acts).isStart q = true → p = q) ∧
    (∀ p q, (runActions cols rows acts).isEnd p = true →
            (runActions cols rows acts).isEnd q = true → p = q) ∧
    (∀ p, ¬((runActions cols rows acts).isStart p = true ∧
            (runActions cols rows acts).isEnd p = true)) := by
  have hUI := uiinv_runActions cols rows acts
  refine ⟨?_, ?_, ?_⟩
  · intro p q hp hq
    have h1 := (hUI.flagsStart p).mp hp
    have h2 := (hUI.flagsStart q).mp hq
    rw [h1] at h2
    exact Option.some.inj h2
  · intro p q hp hq
    have h1 := (hUI.flagsEnd p).mp hp
    have h2 := (hUI.flagsEnd q).mp hq
    rw [h1] at h2
    exact Option.some.inj h2
  · intro p ⟨hp, hq⟩
    exact hUI.refsNe p ⟨(hUI.flagsStart p).mp hp, (hUI.flagsEnd p).mp hq⟩

/-- Witness for the amended C7: on a fresh 1×1 grid with the start placed at
(0,0), the start flag holds there, and uniqueness applied at that cell. -/
theorem C7_witness :
    (runActions 1 1 [Action.mouseDown (0, 0)]).isStart (0, 0) = true ∧
    ((0, 0) : Pos) = (0, 0) :=
  ⟨by decide,
   (C7_amended_endpoint_uniqueness 1 1 [Action.mouseDown (0, 0)]).1 (0, 0) (0, 0)
     (by decide) (by decide)⟩

/-- Claim C8: full reset is idempotent — for every starting state, `clearAll`
twice yields a state identical (all cell flags, cost fields, parents, start/end
references, open/closed/path collections) to `clearAll` once. -/
theorem C8_clearAll_idempotent (s : State) : clearAll (clearAll s) = clearAll s := by
  unfold clearAll clearStartEnd clearPath
  rcases s.start with _ | a <;> rcases s.endRef with _ | b <;> rfl

/-- Claim C9: the search is deterministic — two visualizer states with the same
dimensions, static obstacle layout, start, and end produce the same outcome,
the same path, and the same explored sequence (the closed set, in expansion
order), regardless of any other state differences. -/
theorem C9_determinism (s1 s2 : State) (a b : Pos)
    (hcols : s1.cols = s2.cols) (hrows : s1.rows = s2.rows)
    (hobst : s1.isObstacle = s2.isObstacle)
    (hs1 : s1.start = some a) (hs2 : s2.start = some a)
    (he1 : s1.endRef = some b) (he2 : s2.endRef = some b) :
    (startPathfinding s1).1 = (startPathfinding s2).1 ∧
    (startPathfinding s1).2.path = (startPathfinding s2).2.path ∧
    (startPathfinding s1).2.closedSet = (startPathfinding s2).2.closedSet := by
  unfold startPathfinding
  rw [hs1, hs2, he1, he2]
  dsimp only
  have hinit : initSearch (clearPath s1).cols (clearPath s1).rows
        (clearPath s1).isObstacle a b
      = initSearch (clearPath s2).cols (clearPath s2).rows
        (clearPath s2).isObstacle a b := by
    show initSearch s1.cols s1.rows s1.isObstacle a b
        = initSearch s2.cols s2.rows s2.isObstacle a b
    rw [hcols, hrows, hobst]
  rw [hinit]
  cases hrun : runAStar (initSearch (clearPath s2).cols (clearPath s2).rows
      (clearPath s2).isObstacle a b) with
  | found pth fin => exact ⟨rfl, rfl, rfl⟩
  | noPath fin => exact ⟨rfl, rfl, rfl⟩
  | outOfFuel fin => exact ⟨rfl, rfl, rfl⟩

/-- Witness for C9: two 2×2 states agreeing on grid, obstacles, and endpoints
but differing in stale search leftovers and interaction flags give identical
outcome, path, and explored sequence. -/
theorem C9_witness :
    (demoC9A.cols = demoC9B.cols ∧ demoC9A.rows = demoC9B.rows ∧
     demoC9A.isObstacle = demoC9B.isObstacle ∧
     demoC9A.start = some (0, 0) ∧ demoC9B.start = some (0, 0) ∧
     demoC9A.endRef = some (1, 1) ∧ demoC9B.endRef = some (1, 1)) ∧
    ((startPathfinding demoC9A).1 = (startPathfinding demoC9B).1 ∧
     (startPathfinding demoC9A).2.path = (startPathfinding demoC9B).2.path ∧
     (startPathfinding demoC9A).2.closedSet = (startPathfinding demoC9B).2.closedSet) :=
  ⟨⟨rfl, rfl, rfl, rfl, rfl, rfl, rfl⟩,
   C9_determinism demoC9A demoC9B (0, 0) (1, 1) rfl rfl rfl rfl rfl rfl rfl⟩

/-- Claim C10 (implicit): along every run, the start's parent stays null and
every other known cell has a parent in the closed set with `g` exactly one
smaller, so the parent walk from any known cell terminates in a duplicate-free
start-to-cell chain of `g + 1` cells; on success the reconstructed path begins
at the start, ends at the end, has `g(end) + 1` cells, and consecutive cells
are parent-linked. -/
theorem C10_parent_chain (cols rows : Nat) (obst : Pos → Bool) (a b : Pos)
    (ha1 : a.1 < cols) (ha2 : a.2 < rows) (hb1 : b.1 < cols) (hb2 : b.2 < rows) :
    (∀ n s', iterateSearch n (initSearch cols rows obst a b) = some s' →
      s'.parent a = none ∧
      (∀ p, memberOf s' p → p ≠ a →
        ∃ q, s'.parent p = some q ∧ q ∈ s'.closedSet ∧ s'.g p = s'.g q + 1) ∧
      (∀ p, memberOf s' p → ∀ fuel, s'.g p + 1 ≤ fuel →
        (walkParents fuel (some p) s'.parent).length = s'.g p + 1 ∧
        (walkParents fuel (some p) s'.parent).head? = some a ∧
        (walkParents fuel (some p) s'.parent).getLast? = some p ∧
        (walkParents fuel (some p) s'.parent).Nodup)) ∧
    (∀ pth fin, runAStar (initSearch cols rows obst a b) = .found pth fin →
      pth.head? = some a ∧ pth.getLast? = some b ∧
      pth.length = fin.g b + 1 ∧
      (∀ i u v, pth[i]? = some u → pth[i + 1]? = some v →
        fin.parent v = some u)) := by
  have hInv : Inv (initSearch cols rows obst a b) := initSearch_inv ha1 ha2 hb1 hb2
  refine ⟨?_, ?_⟩
  · intro n s' heq
    have hInv' := iterateSearch_inv n _ s' hInv heq
    obtain ⟨hstart, _⟩ := iterateSearch_consts n _ s' heq
    have hsa : s'.startP = a := hstart
    refine ⟨?_, ?_, ?_⟩
    · rw [← hsa]
      exact hInv'.startPar
    · intro p hp hpa
      refine hInv'.parentInv p hp ?_
      intro h
      exact hpa (h.trans hsa)
    · intro p hp fuel hfuel
      obtain ⟨h1, h2, h3, h4, _, _⟩ :=
        chain_spec hInv'.toInvCore (s'.g p) p hp le_rfl fuel hfuel
      rw [hsa] at h2
      exact ⟨h1, h2, h3, h4⟩
  · intro pth fin heq
    obtain ⟨h1, h2, h3, h4, h5, h6⟩ := astarLoop_found_spec _ _ _ _ hInv heq
    rw [h5] at h1
    rw [h6] at h2 h3
    exact ⟨h1, h2, h3, h4⟩

/-- Witness for C10: the success-path clause at a concrete 3×3 obstacle-free
instance with start (0,0) and end (2,2). -/
theorem C10_witness :
    (((0, 0) : Pos).1 < 3 ∧ ((0, 0) : Pos).2 < 3 ∧
     ((2, 2) : Pos).1 < 3 ∧ ((2, 2) : Pos).2 < 3) ∧
    (∀ pth fin, runAStar (initSearch 3 3 (fun _ => false) (0, 0) (2, 2)) =
        .found pth fin →
      pth.head? = some (0, 0) ∧ pth.getLast? = some (2, 2) ∧
      pth.length = fin.g (2, 2) + 1 ∧
      (∀ i u v, pth[i]? = some u → pth[i + 1]? = some v →
        fin.parent v = some u)) :=
  ⟨⟨by decide, by decide, by decide, by decide⟩,
   (C10_parent_chain 3 3 (fun _ => false) (0, 0) (2, 2)
     (by decide) (by decide) (by decide) (by decide)).2⟩

end AStarVis
